import Mathlib

/-!
Verification development for the TriangleM script extractor
(`trianglem_extractor.py`).  Byte buffers are modelled as `List Nat`
(each element one byte) and Python strings as `List Char` (one element
per codepoint).  The definitions below are shallow embeddings of the
extractor's classes and functions; the theorems at the end settle the
specification claims against them.
-/

namespace TriangleM

/-- Bytes of an ASCII string, used to build concrete byte buffers. -/
def asciiBytes (s : String) : List Nat := s.toList.map Char.toNat

/-- Codepoints considered whitespace by Python's `str.strip` family. -/
def pyIsSpace (c : Char) : Bool :=
  [9, 10, 11, 12, 13, 28, 29, 30, 31, 32, 0x85, 0xA0, 0x1680,
   0x2000, 0x2001, 0x2002, 0x2003, 0x2004, 0x2005, 0x2006, 0x2007,
   0x2008, 0x2009, 0x200A, 0x2028, 0x2029, 0x202F, 0x205F, 0x3000].contains c.toNat

/-- Python `str.lstrip()` on a codepoint list. -/
def pyLStrip (s : List Char) : List Char := s.dropWhile pyIsSpace

/-- Python `str.rstrip()` on a codepoint list. -/
def pyRStrip (s : List Char) : List Char := (s.reverse.dropWhile pyIsSpace).reverse

/-- Python `str.strip()` on a codepoint list. -/
def pyStrip (s : List Char) : List Char := pyRStrip (pyLStrip s)

/-- Python `str.lstrip(chars)` on a codepoint list. -/
def pyLStripChars (cs : List Char) (s : List Char) : List Char :=
  s.dropWhile (fun c => cs.contains c)

/-- Python `str.strip(chars)` on a codepoint list. -/
def pyStripChars (cs : List Char) (s : List Char) : List Char :=
  ((s.dropWhile (fun c => cs.contains c)).reverse.dropWhile
    (fun c => cs.contains c)).reverse

/-- Python substring test `pat in s` (contiguous substring). -/
def pyIn (pat : List Char) : List Char → Bool
  | [] => pat.isEmpty
  | c :: rest => List.isPrefixOf pat (c :: rest) || pyIn pat rest

/-- Python `s.startswith(pat)`. -/
def pyStartsWith (pat s : List Char) : Bool := List.isPrefixOf pat s

/-- Python `s.endswith(pat)`. -/
def pyEndsWith (pat s : List Char) : Bool := List.isSuffixOf pat s

/-- Index of the first occurrence of `pat` in `s`, if any. -/
def firstIdxOf (pat : List Char) : List Char → Option Nat
  | [] => if pat.isEmpty then some 0 else none
  | c :: rest =>
    if List.isPrefixOf pat (c :: rest) then some 0
    else (firstIdxOf pat rest).map (· + 1)

/-- Python `s.find(pat)`: first occurrence index, `-1` when absent. -/
def pyFind (pat s : List Char) : Int :=
  match firstIdxOf pat s with
  | some i => (i : Int)
  | none => -1

/-- Python slice `s[a:b]` for non-negative bounds. -/
def pySlice (s : List Char) (a b : Nat) : List Char := (s.take b).drop a

/-- Python slice `bs[a:b]` on a byte buffer, for non-negative bounds. -/
def byteSlice (bs : List Nat) (a b : Nat) : List Nat := (bs.take b).drop a

/-- Python `s.split(sep)` for a one-codepoint separator. -/
def pySplit (sep : Char) : List Char → List (List Char)
  | [] => [[]]
  | c :: rest =>
    if c = sep then [] :: pySplit sep rest
    else
      match pySplit sep rest with
      | h :: t => (c :: h) :: t
      | [] => [[c]]

/-- Python `s.replace(pat, '')` for a non-empty `pat`: delete every
non-overlapping occurrence, scanning left to right. -/
def pyReplaceDel (pat : List Char) : List Char → List Char
  | [] => []
  | c :: rest =>
    if List.isPrefixOf pat (c :: rest) ∧ pat ≠ [] then
      pyReplaceDel pat ((c :: rest).drop pat.length)
    else
      c :: pyReplaceDel pat rest
termination_by s => s.length
decreasing_by
  · simp only [List.length_drop, List.length_cons]
    rename_i h
    have hp : pat.length ≤ rest.length + 1 := by
      have h2 := List.isPrefixOf_iff_prefix.mp h.1
      simpa using h2.length_le
    have hne : pat.length ≠ 0 := by
      simpa [List.length_eq_zero] using h.2
    omega
  · simp

/-- Whether a byte is a UTF-8 continuation byte (`0x80..0xBF`). -/
def contByte (b : Nat) : Bool := 0x80 ≤ b && b ≤ 0xBF

/-- Valid second byte for a three-byte UTF-8 lead (excludes overlong
encodings and surrogates, as CPython's decoder does). -/
def cont2ok (lead c : Nat) : Bool :=
  if lead = 0xE0 then 0xA0 ≤ c && c ≤ 0xBF
  else if lead = 0xED then 0x80 ≤ c && c ≤ 0x9F
  else contByte c

/-- Valid second byte for a four-byte UTF-8 lead. -/
def cont3ok (lead c : Nat) : Bool :=
  if lead = 0xF0 then 0x90 ≤ c && c ≤ 0xBF
  else if lead = 0xF4 then 0x80 ≤ c && c ≤ 0x8F
  else contByte c

/-- Python `bytes.decode('utf-8', errors='ignore')`: decode UTF-8,
skipping the maximal invalid subpart on error and emitting nothing
for it. -/
def utf8DecodeIgnore : List Nat → List Char
  | [] => []
  | b :: rest =>
    if b < 0x80 then Char.ofNat b :: utf8DecodeIgnore rest
    else if 0xC2 ≤ b && b ≤ 0xDF then
      match rest with
      | [] => []
      | c1 :: rest1 =>
        if contByte c1 then
          Char.ofNat ((b - 0xC0) * 0x40 + (c1 - 0x80)) :: utf8DecodeIgnore rest1
        else utf8DecodeIgnore (c1 :: rest1)
    else if 0xE0 ≤ b && b ≤ 0xEF then
      match rest with
      | [] => []
      | c1 :: rest1 =>
        if cont2ok b c1 then
          match rest1 with
          | [] => []
          | c2 :: rest2 =>
            if contByte c2 then
              Char.ofNat ((b - 0xE0) * 0x1000 + (c1 - 0x80) * 0x40 + (c2 - 0x80)) ::
                utf8DecodeIgnore rest2
            else utf8DecodeIgnore (c2 :: rest2)
        else utf8DecodeIgnore (c1 :: rest1)
    else if 0xF0 ≤ b && b ≤ 0xF4 then
      match rest with
      | [] => []
      | c1 :: rest1 =>
        if cont3ok b c1 then
          match rest1 with
          | [] => []
          | c2 :: rest2 =>
            if contByte c2 then
              match rest2 with
              | [] => []
              | c3 :: rest3 =>
                if contByte c3 then
                  Char.ofNat ((b - 0xF0) * 0x40000 + (c1 - 0x80) * 0x1000 +
                    (c2 - 0x80) * 0x40 + (c3 - 0x80)) :: utf8DecodeIgnore rest3
                else utf8DecodeIgnore (c3 :: rest3)
            else utf8DecodeIgnore (c2 :: rest2)
        else utf8DecodeIgnore (c1 :: rest1)
    else utf8DecodeIgnore rest

/-- Python `bytes.decode('utf-16le')` (strict): `none` on an odd byte
count or a lone surrogate, otherwise the decoded codepoints. -/
def utf16leDecode : List Nat → Option (List Char)
  | [] => some []
  | [_] => none
  | b0 :: b1 :: rest =>
    let u := b0 + 256 * b1
    if u < 0xD800 || 0xE000 ≤ u then
      (utf16leDecode rest).map (Char.ofNat u :: ·)
    else if u ≤ 0xDBFF then
      match rest with
      | b2 :: b3 :: rest2 =>
        let v := b2 + 256 * b3
        if 0xDC00 ≤ v && v ≤ 0xDFFF then
          (utf16leDecode rest2).map
            (Char.ofNat (0x10000 + (u - 0xD800) * 0x400 + (v - 0xDC00)) :: ·)
        else none
      | _ => none
    else none

/-- Little-endian `uint16` read (`struct.unpack('<H', data[pos:pos+2])`). -/
def readU16LE (data : List Nat) (pos : Nat) : Nat :=
  data.getD pos 0 + 256 * data.getD (pos + 1) 0

/-- Little-endian `uint32` read (`struct.unpack('<I', data[pos:pos+4])`). -/
def readU32LE (data : List Nat) (pos : Nat) : Nat :=
  data.getD pos 0 + 256 * data.getD (pos + 1) 0 +
    65536 * data.getD (pos + 2) 0 + 16777216 * data.getD (pos + 3) 0

/-- One entry of `MemFSParser.files`. -/
structure IndexEntry where
  path : List Char
  metadata_offset : Int
  val1 : Nat
  val2 : Nat
  pathPrefixVal : Nat
deriving DecidableEq

/-- The inner scan of `MemFSParser._parse`'s first pass: starting at
`e`, advance two bytes at a time while `e + 1 < len` and the two bytes
at `e` are not `00 00`; returns the final `e`.  `fuel` bounds the
number of steps (the caller passes enough for the loop to finish). -/
def scanPathEnd (data : List Nat) : Nat → Nat → Nat
  | 0, e => e
  | fuel + 1, e =>
    if e + 1 < data.length ∧ ¬(data.getD e 0 = 0 ∧ data.getD (e + 1) 0 = 0) then
      scanPathEnd data fuel (e + 2)
    else e

/-- First pass of `MemFSParser._parse`: scan for the UTF-16LE encoding
of `/`, extend to a two-byte null terminator, decode as UTF-16LE and
keep paths containing `.tat`, `.json` or `.armd`; scanning resumes at
the terminator position. -/
def findPaths (data : List Nat) : Nat → Nat → List (Nat × List Char)
  | 0, _ => []
  | fuel + 1, s =>
    if s < data.length then
      if data.getD s 0 = 0x2F ∧ s + 1 < data.length ∧ data.getD (s + 1) 0 = 0 then
        let e := scanPathEnd data (data.length + 1) s
        let found :=
          match utf16leDecode (byteSlice data s e) with
          | some path =>
            if pyIn ".tat".toList path || pyIn ".json".toList path ||
                pyIn ".armd".toList path then
              [(s, path)]
            else []
          | none => []
        found ++ findPaths data fuel e
      else findPaths data fuel (s + 1)
    else []

/-- Second pass of `MemFSParser._parse`: for each found path at offset
`P`, look 16 bytes back; discard the candidate when that offset is
negative, otherwise read the metadata fields. -/
def parseEntries (data : List Nat) : List (Nat × List Char) → List IndexEntry
  | [] => []
  | (p, path) :: rest =>
    if (p : Int) - 16 < 0 then parseEntries data rest
    else
      { path := path
        metadata_offset := (p : Int) - 16
        val1 := readU32LE data (p - 16)
        val2 := readU32LE data (p - 12)
        pathPrefixVal := readU16LE data (p - 8) } :: parseEntries data rest

/-- `MemFSParser(data).files`: the ordered entry list recovered from a
memfs buffer. -/
def memfsFiles (data : List Nat) : List IndexEntry :=
  parseEntries data (findPaths data (data.length + 1) 0)

/-- Adler-32 checksum of a byte sequence (the zlib trailer value). -/
def adler32 (bs : List Nat) : Nat :=
  let p := bs.foldl (fun st b => ((st.1 + b) % 65521, (st.2 + st.1 + b) % 65521)) (1, 0)
  p.2 * 65536 + p.1

/-- The four big-endian trailer bytes of the Adler-32 checksum. -/
def adlerBytes (bs : List Nat) : List Nat :=
  let a := adler32 bs
  [a / 16777216 % 256, a / 65536 % 256, a / 256 % 256, a % 256]

/-- Modelled from the spec: the DEFLATE bit stream produced for a byte
sequence, as a sequence of stored (uncompressed) blocks of at most
65535 bytes each — a valid output of the standard scheme.  Huffman
compression is not modelled.  `fuel` bounds the number of blocks. -/
def deflateStoredGo : Nat → List Nat → List Nat
  | 0, _ => []
  | fuel + 1, bs =>
    if bs.length ≤ 65535 then
      [1, bs.length % 256, bs.length / 256,
       (65535 - bs.length) % 256, (65535 - bs.length) / 256] ++ bs
    else
      [0, 255, 255, 0, 0] ++ bs.take 65535 ++ deflateStoredGo fuel (bs.drop 65535)

/-- Modelled from the spec: DEFLATE encoding with stored blocks. -/
def deflateStored (bs : List Nat) : List Nat := deflateStoredGo (bs.length + 1) bs

/-- Outcome of inflating a raw DEFLATE stream: a complete stream with
its trailing bytes, a truncated stream together with the bytes decoded
so far, or invalid data. -/
inductive InflRes where
  | done (out rest : List Nat)
  | trunc (out : List Nat)
  | bad
deriving DecidableEq

/-- Modelled from the spec: the raw DEFLATE decoder of `zlib`,
restricted to stored blocks.  A truncated stream yields the bytes
copied so far (`trunc`); a malformed block header or a block type this
model does not cover yields `bad`. -/
def inflateGo : Nat → List Nat → List Nat → InflRes
  | 0, acc, _ => .trunc acc
  | fuel + 1, acc, bs =>
    match bs with
    | [] => .trunc acc
    | h :: rest =>
      if h / 2 % 4 = 0 then
        match rest with
        | l0 :: l1 :: n0 :: n1 :: rest2 =>
          let len := l0 + 256 * l1
          if n0 + 256 * n1 = 65535 - len then
            if rest2.length < len then .trunc (acc ++ rest2)
            else if h % 2 = 1 then .done (acc ++ rest2.take len) (rest2.drop len)
            else inflateGo fuel (acc ++ rest2.take len) (rest2.drop len)
          else .bad
        | _ => .trunc acc
      else .bad

/-- The decoded bytes of a complete inflation, if the stream was
complete. -/
def doneOut : InflRes → Option (List Nat)
  | .done out _ => some out
  | _ => none

/-- Modelled from the spec: `zlib.compress` — the two-byte zlib header
`78 9c`, the DEFLATE stream, and the big-endian Adler-32 trailer. -/
def zlibCompress (bs : List Nat) : List Nat :=
  [0x78, 0x9C] ++ deflateStored bs ++ adlerBytes bs

/-- Modelled from the spec: `zlib.decompress` — validate the two-byte
zlib header, inflate, and require a complete stream whose Adler-32
trailer matches; `none` models a raised `zlib.error`. -/
def zlibDecompress (s : List Nat) : Option (List Nat) :=
  match s with
  | cmf :: flg :: rest =>
    if cmf % 16 = 8 ∧ cmf / 16 ≤ 7 ∧ (cmf * 256 + flg) % 31 = 0 ∧ flg / 32 % 2 = 0 then
      match inflateGo (rest.length + 1) [] rest with
      | .done out rest2 =>
        if 4 ≤ rest2.length ∧ rest2.take 4 = adlerBytes out then some out else none
      | _ => none
    else none
  | _ => none

/-- Modelled from the spec: `zlib.decompressobj(-15).decompress(s)` —
raw (header-less) inflation which returns the bytes decoded so far on
a truncated stream and raises (`none`) only on invalid data. -/
def rawInflate (s : List Nat) : Option (List Nat) :=
  match inflateGo (s.length + 1) [] s with
  | .done out _ => some out
  | .trunc out => some out
  | .bad => none

/-- `MemBodyExtractor`: the body bytes plus the located offset of the
compressed stream. -/
structure MemBody where
  data : List Nat
  compress_offset : Nat
deriving DecidableEq

/-- Whether a recognized deflate-stream header (`78 9c` or `78 da`)
appears at offset `i` of the buffer. -/
def sigAt (d : List Nat) (i : Nat) : Bool :=
  d.getD i 0 == 0x78 && (d.getD (i + 1) 0 == 0x9C || d.getD (i + 1) 0 == 0xDA)

/-- `MemBodyExtractor._find_deflate_start`: the first offset in
`range(2, min(100, len(data)))` holding a deflate header signature. -/
def findDeflateStart (d : List Nat) : Option Nat :=
  List.find? (fun i => sigAt d i) (List.range' 2 (min 100 d.length - 2))

/-- `MemBodyExtractor.__init__`: check the two-byte `RZ` signature and
locate the compressed stream. -/
def memBodyInit (d : List Nat) : Except String MemBody :=
  if d.take 2 = [82, 90] then
    match findDeflateStart d with
    | some i => .ok { data := d, compress_offset := i }
    | none => .error "Could not find deflate stream"
  else .error "Invalid membody header"

/-- `MemBodyExtractor.decompress`: try zlib-wrapped decompression of
the stream; on failure try raw deflate; error only when both fail. -/
def MemBody.decompress (m : MemBody) : Except String (List Nat) :=
  let stream := m.data.drop m.compress_offset
  match zlibDecompress stream with
  | some d => .ok d
  | none =>
    match rawInflate stream with
    | some d => .ok d
    | none => .error "Failed to decompress"

/-- The scene-header test applied to a decoded bracket marker in
`MemBodyExtractor.find_file_data` (used identically by the
segment-opening scan and the next-boundary scan):
`'_TOP]' in header or '_START]' in header or '_END]' in header`. -/
def sceneCond (header : List Char) : Bool :=
  pyIn "_TOP]".toList header || pyIn "_START]".toList header ||
    pyIn "_END]".toList header

/-- The close-bracket scan of `find_file_data`: the first index `j ≥ i`
with byte `]`, or the buffer length when there is none. -/
def scanClose (p : List Nat) (i : Nat) : Nat :=
  match List.find? (fun j => p.getD j 0 == 93) (List.range' i (p.length - i)) with
  | some j => j
  | none => p.length

/-- Whether a scene-boundary marker opens at offset `i` of the payload:
an open bracket whose matching close bracket exists, with the decoded
bracket text passing the scene-header test. -/
def boundaryAt (p : List Nat) (i : Nat) : Bool :=
  p.getD i 0 == 91 &&
    (decide (scanClose p (i + 1) < p.length) &&
      sceneCond (utf8DecodeIgnore (byteSlice p i (scanClose p (i + 1) + 1))))

/-- The boundary scan of `find_file_data`: the first offset `j ≥ i` at
which a scene-boundary marker opens, or the payload length. -/
def scanBoundary (p : List Nat) (i : Nat) : Nat :=
  match List.find? (fun j => boundaryAt p j) (List.range' i (p.length - i)) with
  | some j => j
  | none => p.length

/-- Filename resolution of `find_file_data`: strip the brackets from
the header, default to `<scene_name>.tat`, and override with the first
index entry whose path contains the header's first
underscore-delimited token (slash-stripped). -/
def resolveFilename (header : List Char) (files : List IndexEntry) : List Char :=
  let scene_name := pyStripChars "[]".toList header
  let token := (pySplit '_' scene_name).headD []
  match files.find? (fun f => pyIn token f.path) with
  | some f => pyLStripChars ['/'] f.path
  | none => scene_name ++ ".tat".toList

/-- One logical segment produced by `find_file_data`: the byte range
`[startOff, endOff)` of the payload, the decoded header marker, the
resolved filename and the raw bytes. -/
structure Segment where
  startOff : Nat
  endOff : Nat
  header : List Char
  filename : List Char
  bytes : List Nat
deriving DecidableEq

/-- The segment loop of `find_file_data`: advance to the next
scene-boundary marker, close the segment at the following boundary (or
the payload end) and continue from there.  `fuel` bounds the number of
iterations; the wrapper passes enough for the loop to finish. -/
def splitGo (p : List Nat) (files : List IndexEntry) : Nat → Nat → List Segment
  | 0, _ => []
  | fuel + 1, pos =>
    let s := scanBoundary p pos
    if s < p.length then
      let e := scanClose p (s + 1)
      let nb := scanBoundary p (e + 1)
      let header := utf8DecodeIgnore (byteSlice p s (e + 1))
      { startOff := s
        endOff := nb
        header := header
        filename := resolveFilename header files
        bytes := byteSlice p s nb } :: splitGo p files fuel nb
    else []

/-- The UTF-8 byte-order-mark skip at the start of `find_file_data`. -/
def bomSkip (p : List Nat) : Nat := if p.take 3 = [0xEF, 0xBB, 0xBF] then 3 else 0

/-- The ordered segment sequence recovered from a decompressed
payload. -/
def segmentsOf (p : List Nat) (files : List IndexEntry) : List Segment :=
  splitGo p files (p.length + 1) (bomSkip p)

/-- Assignment `result[filename] = file_data` on a Python dict modelled
as an ordered association list: overwrite in place when the key is
present, append otherwise. -/
def dictInsert (d : List (List Char × List Nat)) (k : List Char) (v : List Nat) :
    List (List Char × List Nat) :=
  if d.any (fun kv => kv.1 == k) then
    d.map (fun kv => if kv.1 == k then (k, v) else kv)
  else d ++ [(k, v)]

/-- Lookup in the modelled dict. -/
def dictLookup (d : List (List Char × List Nat)) (k : List Char) : Option (List Nat) :=
  (d.find? (fun kv => kv.1 == k)).map (fun kv => kv.2)

/-- `MemBodyExtractor.find_file_data`: the filename → bytes mapping
built by assigning each segment's bytes under its resolved filename. -/
def find_file_data (p : List Nat) (files : List IndexEntry) :
    List (List Char × List Nat) :=
  (segmentsOf p files).foldl (fun d seg => dictInsert d seg.filename seg.bytes) []

/-- `TATParser._has_japanese`: any codepoint in `0x3040..0x9FFF`. -/
def has_japanese (t : List Char) : Bool :=
  t.any (fun c => 0x3040 ≤ c.toNat && c.toNat ≤ 0x9FFF)

/-- One extracted record (`type` is `none` when the emitted dict has no
`'type'` key). -/
structure DialogueRecord where
  file : List Char
  line : Nat
  speaker : List Char
  text : List Char
  full_line : List Char
  context : List Char
  scene : List Char
  type : Option (List Char)
deriving DecidableEq

/-- `TATParser._get_scene_header`: the first of the first 20 lines that
starts with `[` and contains `]`, stripped; empty when none. -/
def getSceneHeader (lines : List (List Char)) : List Char :=
  match (lines.take 20).find?
      (fun l => pyStartsWith "[".toList l && pyIn "]".toList l) with
  | some l => pyStrip l
  | none => []

/-- The descending index list `range(start, stop, -1)` of Python, for
the truncated-subtraction arguments used by the context loop. -/
def downRangeExcl : Nat → Nat → List Nat
  | 0, _ => []
  | s + 1, stop => if stop < s + 1 then (s + 1) :: downRangeExcl s stop else []

/-- The context-collection loop body: walk the given indices, keep
stripped lines that are non-empty and not comments, inserting at the
front, and stop once two lines are collected. -/
def ctxGo (lines : List (List Char)) : List Nat → List (List Char) → Nat → List (List Char)
  | [], acc, _ => acc
  | i :: is, acc, count =>
    let c := pyStrip (lines.getD i [])
    let keep := ¬c.isEmpty ∧ ¬pyStartsWith "//".toList c
    let acc' := if keep then c :: acc else acc
    let count' := if keep then count + 1 else count
    if 2 ≤ count' then acc' else ctxGo lines is acc' count'

/-- The context lines gathered for a record at `line_num`: the loop
`for i in range(line_num - 1, max(0, line_num - 3), -1)`. -/
def contextFor (lines : List (List Char)) (line_num : Nat) : List (List Char) :=
  ctxGo lines (downRangeExcl (line_num - 1) (line_num - 3)) [] 0

/-- `'\n'.join(...)`. -/
def joinNL (ls : List (List Char)) : List Char := List.intercalate ['\n'] ls

/-- The speaker-line test: starts with `｛` and contains `｝`. -/
def speakerLineCond (line : List Char) : Bool :=
  pyStartsWith "｛".toList line && pyIn "｝".toList line

/-- The dialogue-line test: contains both `「` and `」`. -/
def quoteCond (line : List Char) : Bool :=
  pyIn "「".toList line && pyIn "」".toList line

/-- The records emitted by the dialogue rule for one (rstripped) line:
extract the text between the first `「` and the first `」`, strip it,
and accept when it passes `_has_japanese` with length at least 2. -/
def dialogueEmit (filename : List Char) (lines : List (List Char)) (line_num : Nat)
    (spk : Option (List Char)) (line : List Char) : List DialogueRecord :=
  let start := pyFind "「".toList line + 1
  let stop := pyFind "」".toList line
  if 0 < start ∧ start < stop then
    let dialogue := pyStrip (pySlice line start.toNat stop.toNat)
    if has_japanese dialogue && decide (2 ≤ dialogue.length) then
      [{ file := filename
         line := line_num + 1
         speaker := spk.getD []
         text := dialogue
         full_line := line
         context := joinNL (contextFor lines line_num)
         scene := getSceneHeader lines
         type := none }]
    else []
  else []

/-- The inline control tokens stripped from narrative lines. -/
def narrativeTags : List (List Char) :=
  ["<KW>".toList, "<WinClear>".toList, "<WinClear ON>".toList,
   "<WinClear OFF>".toList, "</n>".toList, "<TW".toList]

/-- The narrative-rule guard on an (rstripped) line: not a comment,
not a control line, not a speaker line, and containing a codepoint in
the `_has_japanese` range. -/
def narrativeCond (line : List Char) : Bool :=
  ¬pyStartsWith "//".toList line && ¬pyStartsWith "<".toList line &&
    ¬pyStartsWith "｛".toList line && has_japanese line

/-- The records emitted by the narrative rule for one (rstripped)
line: strip the control tokens, trim, and accept when the result has
length in `[4, 200)`, still passes `_has_japanese` and does not start
with `[`. -/
def narrativeEmit (filename : List Char) (lines : List (List Char)) (line_num : Nat)
    (line : List Char) : List DialogueRecord :=
  let cleaned := pyStrip (narrativeTags.foldl (fun t tag => pyReplaceDel tag t) line)
  if 4 ≤ cleaned.length ∧ cleaned.length < 200 ∧ has_japanese cleaned = true ∧
      pyStartsWith "[".toList cleaned = false then
    [{ file := filename
       line := line_num + 1
       speaker := []
       text := cleaned
       full_line := line
       context := joinNL (contextFor lines line_num)
       scene := getSceneHeader lines
       type := some "narrative".toList }]
  else []

/-- The records the loop body of `TATParser.extract_dialogue` emits
for one raw line (before rstripping), given the current speaker. -/
def lineRecords (filename : List Char) (lines : List (List Char)) (line_num : Nat)
    (spk : Option (List Char)) (l : List Char) : List DialogueRecord :=
  let line := pyRStrip l
  if speakerLineCond line then []
  else if quoteCond line then dialogueEmit filename lines line_num spk line
  else if narrativeCond line then narrativeEmit filename lines line_num line
  else []

/-- The `current_speaker` update the loop body performs for one raw
line: a speaker line sets it, a quote-pair line clears it, anything
else leaves it unchanged. -/
def stepSpeaker (spk : Option (List Char)) (l : List Char) : Option (List Char) :=
  let line := pyRStrip l
  if speakerLineCond line then some (pyStripChars "｛｝".toList line)
  else if quoteCond line then none
  else spk

/-- The line loop of `TATParser.extract_dialogue`. -/
def extractGo (filename : List Char) (lines : List (List Char)) :
    List (List Char) → Nat → Option (List Char) → List DialogueRecord
  | [], _, _ => []
  | l :: rest, line_num, spk =>
    lineRecords filename lines line_num spk l ++
      extractGo filename lines rest (line_num + 1) (stepSpeaker spk l)

/-- `str.split('\n')` applied to the decoded file text. -/
def splitLines (text : List Char) : List (List Char) := pySplit '\n' text

/-- `TATParser.extract_dialogue` on the decoded text of one file. -/
def extract_dialogue (filename text : List Char) : List DialogueRecord :=
  let lines := splitLines text
  extractGo filename lines lines 0 none

/-- A concrete index buffer holding one `.tat` path at offset 16
(used by witnesses). -/
def exMemfsData : List Nat :=
  List.replicate 16 0 ++
    [0x2F, 0, 0x61, 0, 0x2E, 0, 0x74, 0, 0x61, 0, 0x74, 0, 0, 0]

/-- The entry the scanner recovers from `exMemfsData` (used by
witnesses). -/
def exEntry : IndexEntry :=
  { path := "/a.tat".toList, metadata_offset := 0, val1 := 0, val2 := 0,
    pathPrefixVal := 0 }

/-- The text between the first `「` and the first `」` of a line, as
sliced by the dialogue rule. -/
def enclosedQuote (line : List Char) : List Char :=
  pySlice line (pyFind "「".toList line + 1).toNat (pyFind "」".toList line).toNat

/-- The three codepoint ranges the specification names for the
Japanese-text test: Hiragana `U+3040..U+309F`, Katakana
`U+30A0..U+30FF`, Kanji `U+4E00..U+9FFF` (stated for comparison with
the code's `_has_japanese`). -/
def specJapaneseRanges (t : List Char) : Bool :=
  t.any (fun c =>
    (0x3040 ≤ c.toNat && c.toNat ≤ 0x309F) ||
    (0x30A0 ≤ c.toNat && c.toNat ≤ 0x30FF) ||
    (0x4E00 ≤ c.toNat && c.toNat ≤ 0x9FFF))

/-- Modelled from the spec: the context walk it describes — from the
record's line walk backward over an unbounded distance, collecting up
to two stripped lines that are non-empty and not comments, stopping
only at the segment start; `k` is the number of lines left to
examine. -/
def specContextWalkD (lines : List (List Char)) : Nat → Nat → List (List Char)
  | 0, _ => []
  | k + 1, count =>
    if 2 ≤ count then []
    else
      let c := pyStrip (lines.getD k [])
      if ¬c.isEmpty ∧ ¬pyStartsWith "//".toList c then
        c :: specContextWalkD lines k (count + 1)
      else specContextWalkD lines k count

/-- Modelled from the spec: the collected context lines re-ordered to
original order. -/
def specContextWalk (lines : List (List Char)) (line_num : Nat) : List (List Char) :=
  (specContextWalkD lines line_num 0).reverse

/-- The record the extractor emits for the single line `「ああ」`
(used by counterexamples and witnesses). -/
def exDialogueRecord : DialogueRecord :=
  { file := "f".toList, line := 1, speaker := [], text := "ああ".toList,
    full_line := "「ああ」".toList, context := [], scene := [], type := none }

/-- The record the extractor emits for the second line of
`cat\n「ああ」` (used by the C9 counterexample). -/
def exC9Record : DialogueRecord :=
  { file := "f".toList, line := 2, speaker := [], text := "ああ".toList,
    full_line := "「ああ」".toList, context := [], scene := [], type := none }

/-- The record the extractor emits for the third line of
`a\npre\n「ああ」` (used by the C9 witness). -/
def exC9Record2 : DialogueRecord :=
  { file := "f".toList, line := 3, speaker := [], text := "ああ".toList,
    full_line := "「ああ」".toList, context := "pre".toList, scene := [],
    type := none }

/-- The per-index qualifier of the context loop: the stripped line at
index `i` when it is non-empty and not a comment. -/
def ctxKeep (lines : List (List Char)) (i : Nat) : Option (List Char) :=
  let c := pyStrip (lines.getD i [])
  if ¬c.isEmpty ∧ ¬pyStartsWith "//".toList c then some c else none

/-- A concrete membody whose stream is a truncated raw stored block
(used by the C3 counterexample). -/
def exTruncBody : MemBody :=
  { data := [82, 90, 0x78, 0x9C, 0x00, 0x63, 0xFF, 0xAA, 0xBB], compress_offset := 2 }

/-- A concrete membody wrapping a valid compressed stream (used by
witnesses). -/
def exGoodBody : MemBody :=
  { data := [82, 90] ++ zlibCompress [5], compress_offset := 2 }

/-! ### Generic facts about first-match scans over index ranges -/

theorem find?_range'_some {f : Nat → Bool} {i n j : Nat}
    (h : List.find? f (List.range' i n) = some j) :
    i ≤ j ∧ j < i + n ∧ f j = true ∧ ∀ k, i ≤ k → k < j → f k = false := by
  induction n generalizing i with
  | zero => simp [List.range'] at h
  | succ n ih =>
    rw [show List.range' i (n + 1) = i :: List.range' (i + 1) n from rfl] at h
    by_cases hfi : f i
    · rw [List.find?_cons_of_pos _ hfi] at h
      obtain rfl : j = i := by simpa using h.symm
      exact ⟨le_refl _, by omega, hfi, fun k hk1 hk2 => absurd hk1 (by omega)⟩
    · rw [List.find?_cons_of_neg _ hfi] at h
      obtain ⟨h1, h2, h3, h4⟩ := ih h
      refine ⟨by omega, by omega, h3, fun k hk1 hk2 => ?_⟩
      rcases Nat.eq_or_lt_of_le hk1 with rfl | hk
      · exact Bool.eq_false_iff.mpr hfi
      · exact h4 k hk hk2

theorem find?_range'_none {f : Nat → Bool} {i n : Nat}
    (h : List.find? f (List.range' i n) = none) :
    ∀ k, i ≤ k → k < i + n → f k = false := by
  intro k hk1 hk2
  have := List.find?_eq_none.mp h k (List.mem_range'_1.mpr ⟨hk1, hk2⟩)
  exact Bool.eq_false_iff.mpr this

/-! ### Facts about the close-bracket and boundary scans -/

theorem scanClose_ge {p : List Nat} {i : Nat} (h : i ≤ p.length) :
    i ≤ scanClose p i := by
  rcases hf : List.find? (fun j => p.getD j 0 == 93) (List.range' i (p.length - i)) with
    _ | j
  · simp only [scanClose, hf]
    exact h
  · simp only [scanClose, hf]
    exact (find?_range'_some hf).1

theorem scanClose_le {p : List Nat} {i : Nat} (h : i ≤ p.length) :
    scanClose p i ≤ p.length := by
  rcases hf : List.find? (fun j => p.getD j 0 == 93) (List.range' i (p.length - i)) with
    _ | j
  · simp only [scanClose, hf]
    exact le_refl _
  · simp only [scanClose, hf]
    have := (find?_range'_some hf).2.1
    omega

theorem scanClose_close {p : List Nat} {i : Nat} (h : scanClose p i < p.length) :
    p.getD (scanClose p i) 0 = 93 := by
  rcases hf : List.find? (fun j => p.getD j 0 == 93) (List.range' i (p.length - i)) with
    _ | j
  · simp only [scanClose, hf] at h
    omega
  · simp only [scanClose, hf]
    simpa using (find?_range'_some hf).2.2.1

theorem scanClose_min {p : List Nat} {i k : Nat} (h : i ≤ p.length)
    (hk1 : i ≤ k) (hk2 : k < scanClose p i) : p.getD k 0 ≠ 93 := by
  rcases hf : List.find? (fun j => p.getD j 0 == 93) (List.range' i (p.length - i)) with
    _ | j
  · simp only [scanClose, hf] at hk2
    have := find?_range'_none hf k hk1 (by omega)
    simpa using this
  · simp only [scanClose, hf] at hk2
    have := (find?_range'_some hf).2.2.2 k hk1 hk2
    simpa using this

theorem boundaryAt_lt_length {p : List Nat} {i : Nat} (h : boundaryAt p i = true) :
    i < p.length := by
  by_contra hc
  have : p.getD i 0 = 0 := List.getD_eq_default _ _ (by omega)
  unfold boundaryAt at h
  rw [this] at h
  simp at h

theorem scanBoundary_ge {p : List Nat} {i : Nat} (h : i ≤ p.length) :
    i ≤ scanBoundary p i := by
  rcases hf : List.find? (fun j => boundaryAt p j) (List.range' i (p.length - i)) with
    _ | j
  · simp only [scanBoundary, hf]
    exact h
  · simp only [scanBoundary, hf]
    exact (find?_range'_some hf).1

theorem scanBoundary_le {p : List Nat} {i : Nat} (h : i ≤ p.length) :
    scanBoundary p i ≤ p.length := by
  rcases hf : List.find? (fun j => boundaryAt p j) (List.range' i (p.length - i)) with
    _ | j
  · simp only [scanBoundary, hf]
    exact le_refl _
  · simp only [scanBoundary, hf]
    have := (find?_range'_some hf).2.1
    omega

theorem scanBoundary_boundary {p : List Nat} {i : Nat}
    (h : scanBoundary p i < p.length) : boundaryAt p (scanBoundary p i) = true := by
  rcases hf : List.find? (fun j => boundaryAt p j) (List.range' i (p.length - i)) with
    _ | j
  · simp only [scanBoundary, hf] at h
    omega
  · simp only [scanBoundary, hf]
    simpa using (find?_range'_some hf).2.2.1

theorem scanBoundary_min {p : List Nat} {i k : Nat} (h : i ≤ p.length)
    (hk1 : i ≤ k) (hk2 : k < scanBoundary p i) : boundaryAt p k = false := by
  rcases hf : List.find? (fun j => boundaryAt p j) (List.range' i (p.length - i)) with
    _ | j
  · simp only [scanBoundary, hf] at hk2
    exact find?_range'_none hf k hk1 (by omega)
  · simp only [scanBoundary, hf] at hk2
    exact (find?_range'_some hf).2.2.2 k hk1 hk2

theorem scanBoundary_eq_self {p : List Nat} {i : Nat} (h : boundaryAt p i = true) :
    scanBoundary p i = i := by
  have hi := boundaryAt_lt_length h
  unfold scanBoundary
  have hr : List.range' i (p.length - i) = i :: List.range' (i + 1) (p.length - i - 1) := by
    have : p.length - i = (p.length - i - 1) + 1 := by omega
    rw [this]
    rfl
  rw [hr, List.find?_cons_of_pos _ h]

theorem scanBoundary_at_length {p : List Nat} : scanBoundary p p.length = p.length := by
  unfold scanBoundary
  simp [List.range']

theorem boundaryAt_elim {p : List Nat} {i : Nat} (h : boundaryAt p i = true) :
    p.getD i 0 = 91 ∧ scanClose p (i + 1) < p.length ∧
      sceneCond (utf8DecodeIgnore (byteSlice p i (scanClose p (i + 1) + 1))) = true := by
  unfold boundaryAt at h
  simp only [Bool.and_eq_true, beq_iff_eq, decide_eq_true_eq] at h
  exact ⟨h.1, h.2.1, h.2.2⟩

theorem splitGo_nil {p : List Nat} {files : List IndexEntry} {fuel pos : Nat}
    (h : ¬scanBoundary p pos < p.length) : splitGo p files fuel pos = [] := by
  cases fuel with
  | zero => rfl
  | succ fuel => simp only [splitGo, h, if_false]

theorem splitGo_cons {p : List Nat} {files : List IndexEntry} {fuel pos : Nat}
    (h : scanBoundary p pos < p.length) :
    splitGo p files (fuel + 1) pos =
      { startOff := scanBoundary p pos
        endOff := scanBoundary p (scanClose p (scanBoundary p pos + 1) + 1)
        header := utf8DecodeIgnore
          (byteSlice p (scanBoundary p pos) (scanClose p (scanBoundary p pos + 1) + 1))
        filename := resolveFilename
          (utf8DecodeIgnore
            (byteSlice p (scanBoundary p pos) (scanClose p (scanBoundary p pos + 1) + 1)))
          files
        bytes := byteSlice p (scanBoundary p pos)
          (scanBoundary p (scanClose p (scanBoundary p pos + 1) + 1)) } ::
        splitGo p files fuel (scanBoundary p (scanClose p (scanBoundary p pos + 1) + 1)) := by
  simp only [splitGo, h, if_true]

/-- The structural invariant of the segment loop: the produced segments
chain end-to-start, start at the first boundary at or after the cursor,
end at the payload length, and cover exactly the bytes from that first
boundary to the payload end. -/
theorem splitGo_spec (p : List Nat) (files : List IndexEntry) :
    ∀ fuel pos, pos ≤ p.length → p.length - pos < fuel →
    (splitGo p files fuel pos = [] → scanBoundary p pos = p.length) ∧
    List.Chain' (fun a b => a.endOff = b.startOff) (splitGo p files fuel pos) ∧
    (∀ sg, (splitGo p files fuel pos).head? = some sg →
        sg.startOff = scanBoundary p pos) ∧
    (∀ sg, (splitGo p files fuel pos).getLast? = some sg → sg.endOff = p.length) ∧
    (∀ k, (∃ s ∈ splitGo p files fuel pos, s.startOff ≤ k ∧ k < s.endOff) ↔
        (scanBoundary p pos ≤ k ∧ k < p.length)) := by
  intro fuel
  induction fuel with
  | zero => intro pos _ h2; omega
  | succ fuel ih =>
    intro pos hpos hfuel
    by_cases hs : scanBoundary p pos < p.length
    · have hshape := @splitGo_cons p files fuel pos hs
      set s := scanBoundary p pos with hs_def
      set e := scanClose p (s + 1) with he_def
      set nb := scanBoundary p (e + 1) with hnb_def
      have hps : pos ≤ s := scanBoundary_ge hpos
      have hb : boundaryAt p s = true := scanBoundary_boundary hs
      have he_lt : e < p.length := (boundaryAt_elim hb).2.1
      have he_ge : s + 1 ≤ e := scanClose_ge (by omega)
      have hnb_ge : e + 1 ≤ nb := scanBoundary_ge (by omega)
      have hnb_le : nb ≤ p.length := scanBoundary_le (by omega)
      have ihnb := ih nb (by omega) (by omega)
      by_cases hnb : nb < p.length
      · have hbnb : boundaryAt p nb = true := scanBoundary_boundary hnb
        have hsb_nb : scanBoundary p nb = nb := scanBoundary_eq_self hbnb
        have htail_ne : splitGo p files fuel nb ≠ [] := by
          intro hne
          have := ihnb.1 hne
          omega
        obtain ⟨t0, ts, hts⟩ := List.exists_cons_of_ne_nil htail_ne
        refine ⟨?_, ?_, ?_, ?_, ?_⟩
        · intro hnil
          rw [hshape] at hnil
          exact absurd hnil (List.cons_ne_nil _ _)
        · rw [hshape, List.chain'_cons']
          refine ⟨?_, ihnb.2.1⟩
          intro y hy
          have hhead : t0.startOff = scanBoundary p nb :=
            ihnb.2.2.1 t0 (by rw [hts]; rfl)
          rw [hts] at hy
          simp only [List.head?_cons, Option.mem_def, Option.some.injEq] at hy
          rw [← hy]
          show nb = t0.startOff
          rw [hhead, hsb_nb]
        · intro sg hsg
          rw [hshape] at hsg
          simp only [List.head?_cons, Option.some.injEq] at hsg
          rw [← hsg]
        · intro sg hsg
          rw [hshape, hts, List.getLast?_cons_cons] at hsg
          exact ihnb.2.2.2.1 sg (by rw [hts, hsg])
        · intro k
          rw [hshape]
          constructor
          · rintro ⟨sg, hsg, hk1, hk2⟩
            rcases List.mem_cons.mp hsg with rfl | hsg
            · simp only at hk1 hk2
              omega
            · have := (ihnb.2.2.2.2 k).mp ⟨sg, hsg, hk1, hk2⟩
              rw [hsb_nb] at this
              omega
          · intro hk
            by_cases hkk : k < nb
            · exact ⟨_, List.mem_cons_self _ _, by simpa using hk.1, by simpa using hkk⟩
            · obtain ⟨sg, hsg, h1, h2⟩ := (ihnb.2.2.2.2 k).mpr (by rw [hsb_nb]; omega)
              exact ⟨sg, List.mem_cons_of_mem _ hsg, h1, h2⟩
      · have hnb_eq : nb = p.length := by omega
        have htail : splitGo p files fuel nb = [] := by
          apply splitGo_nil
          rw [hnb_eq, scanBoundary_at_length]
          omega
        rw [htail] at hshape
        refine ⟨?_, ?_, ?_, ?_, ?_⟩
        · intro hnil
          rw [hshape] at hnil
          exact absurd hnil (List.cons_ne_nil _ _)
        · rw [hshape]
          exact List.chain'_singleton _
        · intro sg hsg
          rw [hshape] at hsg
          simp only [List.head?_cons, Option.some.injEq] at hsg
          rw [← hsg]
        · intro sg hsg
          rw [hshape] at hsg
          simp only [List.getLast?_singleton, Option.some.injEq] at hsg
          rw [← hsg]
          exact hnb_eq
        · intro k
          rw [hshape]
          constructor
          · rintro ⟨sg, hsg, hk1, hk2⟩
            rcases List.mem_cons.mp hsg with rfl | hsg
            · simp only at hk1 hk2
              omega
            · simp at hsg
          · intro hk
            refine ⟨_, List.mem_cons_self _ _, by simpa using hk.1, ?_⟩
            show k < nb
            omega
    · have hnil := @splitGo_nil p files (fuel + 1) pos hs
      have hs_eq : scanBoundary p pos = p.length := by
        have := @scanBoundary_le p pos hpos
        omega
      rw [hnil]
      refine ⟨fun _ => hs_eq, List.chain'_nil, by simp, by simp, fun k => ?_⟩
      simp only [List.not_mem_nil, false_and, exists_false, hs_eq]
      constructor
      · rintro ⟨_, ⟨⟩, _⟩
      · omega

theorem bomSkip_le (p : List Nat) : bomSkip p ≤ p.length := by
  unfold bomSkip
  split
  · rename_i h
    have := congrArg List.length h
    simp [List.length_take] at this
    omega
  · omega

/-- Claim C1: the logical segments produced by the splitter are
contiguous and ordered — each segment's `endOff` equals the next
segment's `startOff`, the first segment starts at the first
scene-boundary marker, the final segment ends at the payload length,
and the union of the segment ranges is exactly the half-open interval
from the first scene-boundary marker's start offset to the payload
length (`scanBoundary p (bomSkip p)` is that first marker offset: it
carries a boundary marker when it is inside the payload, and no offset
before it does). -/
theorem c1_segments_contiguous (p : List Nat) (files : List IndexEntry) :
    List.Chain' (fun a b => a.endOff = b.startOff) (segmentsOf p files) ∧
    (∀ sg, (segmentsOf p files).head? = some sg →
        sg.startOff = scanBoundary p (bomSkip p)) ∧
    (∀ sg, (segmentsOf p files).getLast? = some sg → sg.endOff = p.length) ∧
    (∀ k, (∃ s ∈ segmentsOf p files, s.startOff ≤ k ∧ k < s.endOff) ↔
        (scanBoundary p (bomSkip p) ≤ k ∧ k < p.length)) ∧
    (scanBoundary p (bomSkip p) < p.length →
        boundaryAt p (scanBoundary p (bomSkip p)) = true) ∧
    (∀ j, bomSkip p ≤ j → j < scanBoundary p (bomSkip p) → boundaryAt p j = false) := by
  have hle := bomSkip_le p
  have h := splitGo_spec p files (p.length + 1) (bomSkip p) hle (by omega)
  exact ⟨h.2.1, h.2.2.1, h.2.2.2.1, h.2.2.2.2,
    fun hlt => scanBoundary_boundary hlt,
    fun j hj1 hj2 => scanBoundary_min hle hj1 hj2⟩

/-- Witness for C1 on a concrete two-scene payload. -/
theorem c1_segments_contiguous_witness :
    ({ startOff := 9, endOff := 17, header := "[B_END]".toList,
       filename := "B_END.tat".toList,
       bytes := asciiBytes "[B_END]z" } : Segment).endOff =
      (asciiBytes "[A_TOP]xy[B_END]z").length ∧
    (scanBoundary (asciiBytes "[A_TOP]xy[B_END]z")
        (bomSkip (asciiBytes "[A_TOP]xy[B_END]z")) ≤ 10 ∧
      10 < (asciiBytes "[A_TOP]xy[B_END]z").length) :=
  ⟨(c1_segments_contiguous (asciiBytes "[A_TOP]xy[B_END]z") []).2.2.1 _ (by decide),
   ((c1_segments_contiguous (asciiBytes "[A_TOP]xy[B_END]z") []).2.2.2.1 10).mp
     (by decide)⟩

/-! ### The decoded text of a bracket marker -/

theorem charOfNat_toNat (v : Nat) :
    (Char.ofNat v).toNat = v ∨ (Char.ofNat v).toNat = 0 := by
  unfold Char.ofNat
  split
  · left
    simp [Char.ofNatAux, Char.toNat, UInt32.toNat, BitVec.toNat_ofNatLt]
  · right
    simp [Char.toNat, UInt32.toNat, BitVec.toNat_ofNatLt]

theorem charOfNat_ne_rbracket {v : Nat} (h : v ≠ 93) : Char.ofNat v ≠ ']' := by
  intro heq
  have h2 := congrArg Char.toNat heq
  have h3 : (']' : Char).toNat = 93 := by decide
  rcases charOfNat_toNat v with h4 | h4 <;> omega

theorem utf8_no_rbracket {xs : List Nat} (h : 93 ∉ xs) :
    ']' ∉ utf8DecodeIgnore xs := by
  induction xs using utf8DecodeIgnore.induct with
  | case1 => simp [utf8DecodeIgnore]
  | case2 b rest hb ih =>
    rw [utf8DecodeIgnore.eq_def]
    simp only [hb, if_true, List.mem_cons, not_or]
    simp only [List.mem_cons, not_or] at h
    refine ⟨fun hc => charOfNat_ne_rbracket (by omega) hc.symm, ih h.2⟩
  | case3 b hb h2 =>
    rw [utf8DecodeIgnore.eq_def]
    simp [hb, h2]
  | case4 b hb h2 c1 rest1 hc1 ih =>
    rw [utf8DecodeIgnore.eq_def]
    simp only [hb, h2, hc1, if_true, if_false, List.mem_cons, not_or]
    simp only [List.mem_cons, not_or] at h
    refine ⟨fun hc => charOfNat_ne_rbracket ?_ hc.symm, ih h.2.2⟩
    simp only [contByte, Bool.and_eq_true, decide_eq_true_eq] at hc1 h2
    omega
  | case5 b hb h2 c1 rest1 hc1 ih =>
    rw [utf8DecodeIgnore.eq_def]
    simp only [hb, h2, hc1, if_true, if_false]
    simp only [List.mem_cons, not_or] at h ⊢
    exact fun hmem => ih (by simp only [List.mem_cons, not_or]; tauto) (by simpa using hmem)
  | case6 b hb h2 h3 =>
    rw [utf8DecodeIgnore.eq_def]
    simp [hb, h2, h3]
  | case7 b hb h2 h3 c1 hc1 =>
    rw [utf8DecodeIgnore.eq_def]
    simp [hb, h2, h3, hc1]
  | case8 b hb h2 h3 c1 hc1 c2 rest2 hc2 ih =>
    rw [utf8DecodeIgnore.eq_def]
    simp only [hb, h2, h3, hc1, hc2, Bool.false_eq_true, if_true, if_false,
      List.mem_cons, not_or]
    simp only [List.mem_cons, not_or] at h
    refine ⟨fun hc => charOfNat_ne_rbracket ?_ hc.symm, ih h.2.2.2⟩
    simp only [Bool.and_eq_true, decide_eq_true_eq] at h3
    unfold cont2ok at hc1
    simp only [contByte] at hc1
    split at hc1
    · simp only [Bool.and_eq_true, decide_eq_true_eq] at hc1
      omega
    · split at hc1 <;>
        simp only [Bool.and_eq_true, decide_eq_true_eq] at hc1 <;> omega
  | case9 b hb h2 h3 c1 hc1 c2 rest2 hc2 ih =>
    rw [utf8DecodeIgnore.eq_def]
    simp only [hb, h2, h3, hc1, hc2, if_true, if_false]
    simp only [List.mem_cons, not_or] at h
    exact ih (by simp only [List.mem_cons, not_or]; tauto)
  | case10 b hb h2 h3 c1 rest1 hc1 ih =>
    rw [utf8DecodeIgnore.eq_def]
    simp only [hb, h2, h3, hc1, if_true, if_false]
    simp only [List.mem_cons, not_or] at h
    exact ih (by simp only [List.mem_cons, not_or]; tauto)
  | case11 b hb h2 h3 h4 =>
    rw [utf8DecodeIgnore.eq_def]
    simp [hb, h2, h3, h4]
  | case12 b hb h2 h3 h4 c1 hc1 =>
    rw [utf8DecodeIgnore.eq_def]
    simp [hb, h2, h3, h4, hc1]
  | case13 b hb h2 h3 h4 c1 hc1 c2 hc2 =>
    rw [utf8DecodeIgnore.eq_def]
    simp [hb, h2, h3, h4, hc1, hc2]
  | case14 b hb h2 h3 h4 c1 hc1 c2 hc2 c3 rest3 hc3 ih =>
    rw [utf8DecodeIgnore.eq_def]
    simp only [hb, h2, h3, h4, hc1, hc2, hc3, Bool.false_eq_true, if_true, if_false,
      List.mem_cons, not_or]
    simp only [List.mem_cons, not_or] at h
    refine ⟨fun hc => charOfNat_ne_rbracket ?_ hc.symm, ih h.2.2.2.2⟩
    simp only [Bool.and_eq_true, decide_eq_true_eq] at h4
    unfold cont3ok at hc1
    simp only [contByte] at hc1
    split at hc1
    · simp only [Bool.and_eq_true, decide_eq_true_eq] at hc1
      omega
    · split at hc1 <;>
        simp only [Bool.and_eq_true, decide_eq_true_eq] at hc1 <;> omega
  | case15 b hb h2 h3 h4 c1 hc1 c2 hc2 c3 rest3 hc3 ih =>
    rw [utf8DecodeIgnore.eq_def]
    simp only [hb, h2, h3, h4, hc1, hc2, hc3, if_true, if_false]
    simp only [List.mem_cons, not_or] at h
    exact ih (by simp only [List.mem_cons, not_or]; tauto)
  | case16 b hb h2 h3 h4 c1 hc1 c2 rest2 hc2 ih =>
    rw [utf8DecodeIgnore.eq_def]
    simp only [hb, h2, h3, h4, hc1, hc2, if_true, if_false]
    simp only [List.mem_cons, not_or] at h
    exact ih (by simp only [List.mem_cons, not_or]; tauto)
  | case17 b hb h2 h3 h4 c1 rest1 hc1 ih =>
    rw [utf8DecodeIgnore.eq_def]
    simp only [hb, h2, h3, h4, hc1, if_true, if_false]
    simp only [List.mem_cons, not_or] at h
    exact ih (by simp only [List.mem_cons, not_or]; tauto)
  | case18 b rest hb h2 h3 h4 ih =>
    rw [utf8DecodeIgnore.eq_def]
    simp only [hb, h2, h3, h4, if_true, if_false]
    simp only [List.mem_cons, not_or] at h
    exact ih h.2

theorem utf8_append_rbracket {xs : List Nat} (h : 93 ∉ xs) :
    utf8DecodeIgnore (xs ++ [93]) = utf8DecodeIgnore xs ++ [']'] := by
  induction xs using utf8DecodeIgnore.induct with
  | case1 => decide
  | case2 b rest hb ih =>
    simp only [List.cons_append]
    conv_lhs => rw [utf8DecodeIgnore.eq_def]
    conv_rhs => rw [utf8DecodeIgnore.eq_def]
    simp only [hb, if_true, List.cons_append]
    simp only [List.mem_cons, not_or] at h
    rw [ih h.2]
  | case3 b hb h2 =>
    simp only [List.cons_append, List.nil_append]
    simp [utf8DecodeIgnore, hb, h2, contByte]
  | case4 b hb h2 c1 rest1 hc1 ih =>
    simp only [List.cons_append]
    conv_lhs => rw [utf8DecodeIgnore.eq_def]
    conv_rhs => rw [utf8DecodeIgnore.eq_def]
    simp only [hb, h2, hc1, Bool.false_eq_true, if_true, if_false, List.cons_append]
    simp only [List.mem_cons, not_or] at h
    rw [ih h.2.2]
  | case5 b hb h2 c1 rest1 hc1 ih =>
    simp only [List.cons_append]
    conv_lhs => rw [utf8DecodeIgnore.eq_def]
    conv_rhs => rw [utf8DecodeIgnore.eq_def]
    simp only [hb, h2, hc1, Bool.false_eq_true, if_true, if_false]
    simp only [List.mem_cons, not_or] at h
    exact ih (by simp only [List.mem_cons, not_or]; tauto)
  | case6 b hb h2 h3 =>
    simp only [List.cons_append, List.nil_append]
    simp [utf8DecodeIgnore, hb, h2, h3, cont2ok, contByte]
  | case7 b hb h2 h3 c1 hc1 =>
    simp only [List.cons_append, List.nil_append]
    simp [utf8DecodeIgnore, hb, h2, h3, hc1, contByte]
  | case8 b hb h2 h3 c1 hc1 c2 rest2 hc2 ih =>
    simp only [List.cons_append]
    conv_lhs => rw [utf8DecodeIgnore.eq_def]
    conv_rhs => rw [utf8DecodeIgnore.eq_def]
    simp only [hb, h2, h3, hc1, hc2, Bool.false_eq_true, if_true, if_false,
      List.cons_append]
    simp only [List.mem_cons, not_or] at h
    rw [ih h.2.2.2]
  | case9 b hb h2 h3 c1 hc1 c2 rest2 hc2 ih =>
    simp only [List.cons_append]
    conv_lhs => rw [utf8DecodeIgnore.eq_def]
    conv_rhs => rw [utf8DecodeIgnore.eq_def]
    simp only [hb, h2, h3, hc1, hc2, Bool.false_eq_true, if_true, if_false]
    simp only [List.mem_cons, not_or] at h
    exact ih (by simp only [List.mem_cons, not_or]; tauto)
  | case10 b hb h2 h3 c1 rest1 hc1 ih =>
    simp only [List.cons_append]
    conv_lhs => rw [utf8DecodeIgnore.eq_def]
    conv_rhs => rw [utf8DecodeIgnore.eq_def]
    simp only [hb, h2, h3, hc1, Bool.false_eq_true, if_true, if_false]
    simp only [List.mem_cons, not_or] at h
    exact ih (by simp only [List.mem_cons, not_or]; tauto)
  | case11 b hb h2 h3 h4 =>
    simp only [List.cons_append, List.nil_append]
    simp [utf8DecodeIgnore, hb, h2, h3, h4, cont3ok, contByte]
  | case12 b hb h2 h3 h4 c1 hc1 =>
    simp only [List.cons_append, List.nil_append]
    simp [utf8DecodeIgnore, hb, h2, h3, h4, hc1, contByte]
  | case13 b hb h2 h3 h4 c1 hc1 c2 hc2 =>
    simp only [List.cons_append, List.nil_append]
    have hcc : 128 ≤ c2 ∧ c2 ≤ 191 := by
      simpa [contByte, Bool.and_eq_true, decide_eq_true_eq] using hc2
    simp [utf8DecodeIgnore, hb, h2, h3, h4, hc1, hc2, contByte, hcc.1, hcc.2,
      show Char.ofNat 93 = ']' from by decide]
  | case14 b hb h2 h3 h4 c1 hc1 c2 hc2 c3 rest3 hc3 ih =>
    simp only [List.cons_append]
    conv_lhs => rw [utf8DecodeIgnore.eq_def]
    conv_rhs => rw [utf8DecodeIgnore.eq_def]
    simp only [hb, h2, h3, h4, hc1, hc2, hc3, Bool.false_eq_true, if_true, if_false,
      List.cons_append]
    simp only [List.mem_cons, not_or] at h
    rw [ih h.2.2.2.2]
  | case15 b hb h2 h3 h4 c1 hc1 c2 hc2 c3 rest3 hc3 ih =>
    simp only [List.cons_append]
    conv_lhs => rw [utf8DecodeIgnore.eq_def]
    conv_rhs => rw [utf8DecodeIgnore.eq_def]
    simp only [hb, h2, h3, h4, hc1, hc2, hc3, Bool.false_eq_true, if_true, if_false]
    simp only [List.mem_cons, not_or] at h
    exact ih (by simp only [List.mem_cons, not_or]; tauto)
  | case16 b hb h2 h3 h4 c1 hc1 c2 rest2 hc2 ih =>
    simp only [List.cons_append]
    conv_lhs => rw [utf8DecodeIgnore.eq_def]
    conv_rhs => rw [utf8DecodeIgnore.eq_def]
    simp only [hb, h2, h3, h4, hc1, hc2, Bool.false_eq_true, if_true, if_false]
    simp only [List.mem_cons, not_or] at h
    exact ih (by simp only [List.mem_cons, not_or]; tauto)
  | case17 b hb h2 h3 h4 c1 rest1 hc1 ih =>
    simp only [List.cons_append]
    conv_lhs => rw [utf8DecodeIgnore.eq_def]
    conv_rhs => rw [utf8DecodeIgnore.eq_def]
    simp only [hb, h2, h3, h4, hc1, Bool.false_eq_true, if_true, if_false]
    simp only [List.mem_cons, not_or] at h
    exact ih (by simp only [List.mem_cons, not_or]; tauto)
  | case18 b rest hb h2 h3 h4 ih =>
    simp only [List.cons_append]
    conv_lhs => rw [utf8DecodeIgnore.eq_def]
    conv_rhs => rw [utf8DecodeIgnore.eq_def]
    simp only [hb, h2, h3, h4, Bool.false_eq_true, if_true, if_false]
    simp only [List.mem_cons, not_or] at h
    exact ih h.2

theorem pyIn_iff {pat s : List Char} : pyIn pat s = true ↔ pat <:+: s := by
  induction s with
  | nil =>
    simp only [pyIn, List.isEmpty_iff, List.infix_nil]
  | cons c rest ih =>
    simp only [pyIn, Bool.or_eq_true, List.infix_cons_iff]
    rw [ih, List.isPrefixOf_iff_prefix]

theorem pyEndsWith_iff {pat s : List Char} : pyEndsWith pat s = true ↔ pat <:+ s := by
  unfold pyEndsWith
  exact List.isSuffixOf_iff_suffix

theorem infix_concat_unique {q s : List Char} {c : Char} (hs : c ∉ s) :
    (q ++ [c] <:+: s ++ [c]) ↔ (q ++ [c] <:+ s ++ [c]) := by
  constructor
  · rintro ⟨t, u, htu⟩
    rcases List.eq_nil_or_concat u with rfl | ⟨L, d, rfl⟩
    · exact ⟨t, by simpa using htu⟩
    · exfalso
      have htu2 : (t ++ (q ++ [c]) ++ L) ++ [d] = s ++ [c] := by
        simpa [List.concat_eq_append, List.append_assoc] using htu
      have hinj := List.append_inj htu2 ?_
      · have hcs : c ∈ s := by
          rw [← hinj.1]
          simp
        exact hs hcs
      · have hlen := congrArg List.length htu2
        simp at hlen
        simp
        omega
  · exact fun h => h.isInfix

theorem mem_byteSlice {p : List Nat} {a b x : Nat} (h : x ∈ byteSlice p a b) :
    ∃ k, a ≤ k ∧ k < b ∧ k < p.length ∧ p.getD k 0 = x := by
  unfold byteSlice at h
  obtain ⟨j, hj, hx⟩ := List.mem_iff_getElem.mp h
  have hj2 := hj
  simp only [List.length_drop, List.length_take] at hj2
  refine ⟨a + j, by omega, by omega, by omega, ?_⟩
  rw [← hx, List.getElem_drop, List.getElem_take]
  rw [List.getD_eq_getElem?_getD, List.getElem?_eq_getElem (by omega)]
  rfl

theorem byteSlice_decomp {p : List Nat} {i e : Nat} (hie : i < e) (he : e < p.length) :
    byteSlice p i (e + 1) =
      p.getD i 0 :: (byteSlice p (i + 1) e ++ [p.getD e 0]) := by
  unfold byteSlice
  rw [List.drop_take, List.drop_take]
  rw [List.drop_eq_getElem_cons (show i < p.length by omega)]
  rw [show e + 1 - i = (e - (i + 1)) + 1 + 1 by omega]
  rw [List.take_succ_cons]
  rw [List.take_succ]
  rw [List.getElem?_drop]
  rw [show i + 1 + (e - (i + 1)) = e by omega]
  rw [List.getElem?_eq_getElem he]
  rw [List.getD_eq_getElem?_getD p i, List.getD_eq_getElem?_getD p e]
  rw [List.getElem?_eq_getElem (show i < p.length by omega),
      List.getElem?_eq_getElem he]
  simp

theorem no_rbracket_in_mid {p : List Nat} {i e : Nat} (he : e = scanClose p (i + 1))
    (hi1 : i + 1 ≤ p.length) : 93 ∉ byteSlice p (i + 1) e := by
  intro hmem
  obtain ⟨k, hk1, hk2, hk3, hk4⟩ := mem_byteSlice hmem
  exact scanClose_min hi1 hk1 (by omega) hk4

/-- Claim C7: a bracketed marker is classified as a scene boundary if
and only if its decoded bracket text ends with one of the literal
suffixes `_TOP]`, `_START]` or `_END]`; the classification
(`sceneCond`, a pure function of the decoded text) is the one used by
both the segment-opening scan and the next-boundary scan through
`boundaryAt`. -/
theorem c7_scene_classification (p : List Nat) (i : Nat) :
    boundaryAt p i =
      (p.getD i 0 == 91 &&
        (decide (scanClose p (i + 1) < p.length) &&
          (pyEndsWith "_TOP]".toList
              (utf8DecodeIgnore (byteSlice p i (scanClose p (i + 1) + 1))) ||
            pyEndsWith "_START]".toList
              (utf8DecodeIgnore (byteSlice p i (scanClose p (i + 1) + 1))) ||
            pyEndsWith "_END]".toList
              (utf8DecodeIgnore (byteSlice p i (scanClose p (i + 1) + 1)))))) := by
  by_cases hbr : p.getD i 0 = 91
  · by_cases hcl : scanClose p (i + 1) < p.length
    · have hi : i < p.length := by
        by_contra hc
        rw [List.getD_eq_default _ _ (by omega)] at hbr
        omega
      have hie : i < scanClose p (i + 1) := by
        have := @scanClose_ge p (i + 1) (by omega)
        omega
      have hdecomp := byteSlice_decomp hie hcl
      rw [scanClose_close hcl] at hdecomp
      have hmid : 93 ∉ byteSlice p (i + 1) (scanClose p (i + 1)) :=
        no_rbracket_in_mid rfl (by omega)
      have hdec : utf8DecodeIgnore (byteSlice p i (scanClose p (i + 1) + 1)) =
          ('[' :: utf8DecodeIgnore (byteSlice p (i + 1) (scanClose p (i + 1)))) ++
            [']'] := by
        rw [hdecomp, hbr]
        rw [utf8DecodeIgnore.eq_def]
        simp only [show (91 : Nat) < 128 from by omega, if_true]
        rw [utf8_append_rbracket hmid]
        rw [show Char.ofNat 91 = '[' from by decide]
        rfl
      have hnomem : ']' ∉ '[' :: utf8DecodeIgnore
          (byteSlice p (i + 1) (scanClose p (i + 1))) := by
        intro hmem
        rcases List.mem_cons.mp hmem with hc | hc
        · exact absurd hc (by decide)
        · exact utf8_no_rbracket hmid hc
      unfold boundaryAt sceneCond
      rw [hdec]
      have htop : pyIn "_TOP]".toList
            (('[' :: utf8DecodeIgnore (byteSlice p (i + 1) (scanClose p (i + 1)))) ++
              [']']) =
          pyEndsWith "_TOP]".toList
            (('[' :: utf8DecodeIgnore (byteSlice p (i + 1) (scanClose p (i + 1)))) ++
              [']']) := by
        rw [show "_TOP]".toList = "_TOP".toList ++ [']'] from by decide]
        apply Bool.coe_iff_coe.mp
        rw [pyIn_iff, pyEndsWith_iff]
        exact infix_concat_unique hnomem
      have hstart : pyIn "_START]".toList
            (('[' :: utf8DecodeIgnore (byteSlice p (i + 1) (scanClose p (i + 1)))) ++
              [']']) =
          pyEndsWith "_START]".toList
            (('[' :: utf8DecodeIgnore (byteSlice p (i + 1) (scanClose p (i + 1)))) ++
              [']']) := by
        rw [show "_START]".toList = "_START".toList ++ [']'] from by decide]
        apply Bool.coe_iff_coe.mp
        rw [pyIn_iff, pyEndsWith_iff]
        exact infix_concat_unique hnomem
      have hend : pyIn "_END]".toList
            (('[' :: utf8DecodeIgnore (byteSlice p (i + 1) (scanClose p (i + 1)))) ++
              [']']) =
          pyEndsWith "_END]".toList
            (('[' :: utf8DecodeIgnore (byteSlice p (i + 1) (scanClose p (i + 1)))) ++
              [']']) := by
        rw [show "_END]".toList = "_END".toList ++ [']'] from by decide]
        apply Bool.coe_iff_coe.mp
        rw [pyIn_iff, pyEndsWith_iff]
        exact infix_concat_unique hnomem
      rw [htop, hstart, hend]
    · unfold boundaryAt
      rw [show decide (scanClose p (i + 1) < p.length) = false from by simpa using hcl]
      simp
  · unfold boundaryAt
    rw [show (p.getD i 0 == 91) = false from by simpa using hbr]
    simp

/-! ### The filename → bytes mapping built by the splitter -/

theorem dictLookup_dictInsert_self (d : List (List Char × List Nat))
    (k : List Char) (v : List Nat) : dictLookup (dictInsert d k v) k = some v := by
  unfold dictInsert dictLookup
  by_cases hany : d.any (fun kv => kv.1 == k)
  · rw [if_pos hany]
    induction d with
    | nil => simp at hany
    | cons kv rest ih =>
      by_cases hk : kv.1 == k
      · simp only [List.map_cons, hk, if_true, List.find?_cons]
        rw [show ((k, v).1 == k) = true from by simp]
        rfl
      · have hkf : (kv.1 == k) = false := by simpa using hk
        simp only [List.map_cons, hkf, Bool.false_eq_true, if_false, List.find?_cons, hkf]
        simp only [List.any_cons, hkf, Bool.false_or] at hany
        exact ih hany
  · rw [if_neg hany]
    rw [List.find?_append]
    have hnone : List.find? (fun kv => kv.1 == k) d = none := by
      rw [List.find?_eq_none]
      intro kv hkv hp
      exact absurd (List.any_eq_true.mpr ⟨kv, hkv, hp⟩) hany
    rw [hnone]
    simp

theorem find?_map_replace {d : List (List Char × List Nat)} {k k' : List Char}
    {v : List Nat} (h : ¬k' = k) :
    List.find? (fun kv => kv.1 == k')
        (d.map (fun kv => if kv.1 == k then (k, v) else kv)) =
      List.find? (fun kv => kv.1 == k') d := by
  induction d with
  | nil => rfl
  | cons kv rest ih =>
    by_cases hk : kv.1 == k
    · have hkk : kv.1 = k := by simpa using hk
      simp only [List.map_cons, hk, if_true, List.find?_cons]
      have h1 : ((k, v).1 == k') = false :=
        beq_eq_false_iff_ne.mpr (fun hc => h hc.symm)
      have h2 : (kv.1 == k') = false := by
        rw [hkk]
        exact beq_eq_false_iff_ne.mpr (fun hc => h hc.symm)
      rw [h1, h2]
      exact ih
    · have hkf : (kv.1 == k) = false := by simpa using hk
      simp only [List.map_cons, hkf, Bool.false_eq_true, if_false, List.find?_cons]
      cases hk' : (kv.1 == k')
      · exact ih
      · rfl

theorem dictLookup_dictInsert_other (d : List (List Char × List Nat))
    {k k' : List Char} (v : List Nat) (h : ¬k' = k) :
    dictLookup (dictInsert d k v) k' = dictLookup d k' := by
  unfold dictInsert dictLookup
  by_cases hany : d.any (fun kv => kv.1 == k)
  · rw [if_pos hany, find?_map_replace h]
  · rw [if_neg hany, List.find?_append]
    rcases hf : List.find? (fun kv => kv.1 == k') d with _ | kv
    · have h1 : ((k, v).1 == k') = false :=
        beq_eq_false_iff_ne.mpr (fun hc => h hc.symm)
      simp [h1]
    · rw [hf]
      rfl

theorem dictInsert_length (d : List (List Char × List Nat)) (k : List Char)
    (v : List Nat) : (dictInsert d k v).length ≤ d.length + 1 := by
  unfold dictInsert
  split
  · simp
  · simp

theorem foldl_dictInsert_lookup (segs : List Segment)
    (d : List (List Char × List Nat)) (k : List Char) :
    dictLookup (segs.foldl (fun d sg => dictInsert d sg.filename sg.bytes) d) k =
      match segs.reverse.find? (fun sg => sg.filename == k) with
      | some sg => some sg.bytes
      | none => dictLookup d k := by
  induction segs using List.reverseRecOn with
  | nil => simp
  | append_singleton l sg ih =>
    rw [List.foldl_append]
    simp only [List.foldl_cons, List.foldl_nil]
    rw [List.reverse_append]
    simp only [List.reverse_singleton, List.singleton_append, List.find?_cons]
    cases hfk : (sg.filename == k)
    · have hne : ¬k = sg.filename := by
        intro hc
        simp [hc] at hfk
      rw [dictLookup_dictInsert_other _ _ hne]
      exact ih
    · have heq : sg.filename = k := by simpa using hfk
      rw [← heq, dictLookup_dictInsert_self]

theorem foldl_dictInsert_length (segs : List Segment)
    (d : List (List Char × List Nat)) :
    (segs.foldl (fun d sg => dictInsert d sg.filename sg.bytes) d).length ≤
      d.length + segs.length := by
  induction segs generalizing d with
  | nil => simp
  | cons sg rest ih =>
    simp only [List.foldl_cons, List.length_cons]
    have h1 := ih (dictInsert d sg.filename sg.bytes)
    have h2 := dictInsert_length d sg.filename sg.bytes
    omega

/-- Claim C10: the splitter's output mapping is keyed by resolved
filename and last-writer-wins — a lookup returns the bytes of the last
segment resolving to that filename (`none` when no segment does), the
mapping never has more entries than there are segments, and on a
payload with two `[A_TOP]` scenes the two segments collapse to one
entry holding the second segment's bytes. -/
theorem c10_mapping_last_wins (p : List Nat) (files : List IndexEntry) :
    (∀ k, dictLookup (find_file_data p files) k =
        ((segmentsOf p files).reverse.find? (fun sg => sg.filename == k)).map
          (fun sg => sg.bytes)) ∧
    (find_file_data p files).length ≤ (segmentsOf p files).length ∧
    (segmentsOf (asciiBytes "[A_TOP]x[A_TOP]yz") []).length = 2 ∧
    (find_file_data (asciiBytes "[A_TOP]x[A_TOP]yz") []).length = 1 ∧
    dictLookup (find_file_data (asciiBytes "[A_TOP]x[A_TOP]yz") [])
        "A_TOP.tat".toList = some (asciiBytes "[A_TOP]yz") := by
  refine ⟨fun k => ?_, ?_, by decide, by decide, by decide⟩
  · unfold find_file_data
    rw [foldl_dictInsert_lookup]
    rcases hf : (segmentsOf p files).reverse.find? (fun sg => sg.filename == k) with
      _ | sg
    · rw [hf]
      rfl
    · rw [hf]
      rfl
  · have := foldl_dictInsert_length (segmentsOf p files) []
    simpa using this

/-! ### Index entries and their metadata window -/

theorem parseEntries_mem (data : List Nat) :
    ∀ (ps : List (Nat × List Char)) (e : IndexEntry),
      e ∈ parseEntries data ps ↔
        ∃ P path, (P, path) ∈ ps ∧ 16 ≤ P ∧
          e = { path := path
                metadata_offset := (P : Int) - 16
                val1 := readU32LE data (P - 16)
                val2 := readU32LE data (P - 12)
                pathPrefixVal := readU16LE data (P - 8) } := by
  intro ps
  induction ps with
  | nil =>
    intro e
    simp [parseEntries]
  | cons pp rest ih =>
    intro e
    obtain ⟨P, path⟩ := pp
    by_cases hP : (P : Int) - 16 < 0
    · rw [show parseEntries data ((P, path) :: rest) = parseEntries data rest from by
        simp [parseEntries, hP]]
      rw [ih e]
      constructor
      · rintro ⟨Q, qpath, hmem, hQ, rfl⟩
        exact ⟨Q, qpath, List.mem_cons_of_mem _ hmem, hQ, rfl⟩
      · rintro ⟨Q, qpath, hmem, hQ, rfl⟩
        rcases List.mem_cons.mp hmem with heq | hmem2
        · obtain ⟨rfl, rfl⟩ := Prod.mk.injEq .. ▸ heq
          omega
        · exact ⟨Q, qpath, hmem2, hQ, rfl⟩
    · have h16 : 16 ≤ P := by omega
      rw [show parseEntries data ((P, path) :: rest) =
          { path := path
            metadata_offset := (P : Int) - 16
            val1 := readU32LE data (P - 16)
            val2 := readU32LE data (P - 12)
            pathPrefixVal := readU16LE data (P - 8) } :: parseEntries data rest from by
        simp [parseEntries, hP]]
      rw [List.mem_cons, ih e]
      constructor
      · rintro (rfl | ⟨Q, qpath, hmem, hQ, rfl⟩)
        · exact ⟨P, path, List.mem_cons_self _ _, h16, rfl⟩
        · exact ⟨Q, qpath, List.mem_cons_of_mem _ hmem, hQ, rfl⟩
      · rintro ⟨Q, qpath, hmem, hQ, rfl⟩
        rcases List.mem_cons.mp hmem with heq | hmem2
        · left
          obtain ⟨rfl, rfl⟩ := Prod.mk.injEq .. ▸ heq
          rfl
        · right
          exact ⟨Q, qpath, hmem2, hQ, rfl⟩

/-- Claim C6: every accepted index entry comes from a path found at a
buffer offset `P ≥ 16`, with `metadataOffset = P - 16 ≥ 0`,
`pathPrefix` the little-endian `uint16` at `metadataOffset + 8` and
`value1`/`value2` the little-endian `uint32` values at `metadataOffset`
and `metadataOffset + 4`; conversely every found path with `P ≥ 16`
yields exactly that entry, and candidates with `P < 16` are discarded
(no entry, no error). -/
theorem c6_index_entry_metadata (data : List Nat) :
    (∀ e ∈ memfsFiles data,
      ∃ P path, (P, path) ∈ findPaths data (data.length + 1) 0 ∧ 16 ≤ P ∧
        e.path = path ∧ e.metadata_offset = (P : Int) - 16 ∧ 0 ≤ e.metadata_offset ∧
        e.pathPrefixVal = readU16LE data (P - 16 + 8) ∧
        e.val1 = readU32LE data (P - 16) ∧ e.val2 = readU32LE data (P - 16 + 4)) ∧
    (∀ P path, (P, path) ∈ findPaths data (data.length + 1) 0 → 16 ≤ P →
      { path := path
        metadata_offset := (P : Int) - 16
        val1 := readU32LE data (P - 16)
        val2 := readU32LE data (P - 12)
        pathPrefixVal := readU16LE data (P - 8) } ∈ memfsFiles data) ∧
    (∀ P path, (P, path) ∈ findPaths data (data.length + 1) 0 → P < 16 →
      ∀ e ∈ memfsFiles data, e.metadata_offset ≠ (P : Int) - 16) := by
  refine ⟨?_, ?_, ?_⟩
  · intro e he
    obtain ⟨P, path, hmem, hP, rfl⟩ := (parseEntries_mem data _ e).mp he
    refine ⟨P, path, hmem, hP, rfl, rfl, by simp; omega, ?_, rfl, ?_⟩
    · rw [show P - 16 + 8 = P - 8 from by omega]
    · rw [show P - 16 + 4 = P - 12 from by omega]
  · intro P path hmem hP
    exact (parseEntries_mem data _ _).mpr ⟨P, path, hmem, hP, rfl⟩
  · intro P path hmem hP e he
    obtain ⟨Q, qpath, hmem2, hQ, rfl⟩ := (parseEntries_mem data _ e).mp he
    simp only
    intro hc
    have : (Q : Int) = P := by omega
    omega

/-- Witness for C6 on a concrete index buffer holding one `.tat` path
at offset 16. -/
theorem c6_index_entry_metadata_witness :
    ∃ P path,
      (P, path) ∈ findPaths exMemfsData (exMemfsData.length + 1) 0 ∧ 16 ≤ P ∧
        exEntry.path = path ∧ exEntry.metadata_offset = (P : Int) - 16 ∧
        0 ≤ exEntry.metadata_offset ∧
        exEntry.pathPrefixVal = readU16LE exMemfsData (P - 16 + 8) ∧
        exEntry.val1 = readU32LE exMemfsData (P - 16) ∧
        exEntry.val2 = readU32LE exMemfsData (P - 16 + 4) :=
  (c6_index_entry_metadata exMemfsData).1 exEntry (by decide)

/-! ### The compressed-body decoder -/

theorem find?_range'_eq_some {f : Nat → Bool} {i n j : Nat}
    (h1 : i ≤ j) (h2 : j < i + n) (h3 : f j = true)
    (h4 : ∀ k, i ≤ k → k < j → f k = false) :
    List.find? f (List.range' i n) = some j := by
  induction n generalizing i with
  | zero => omega
  | succ n ih =>
    rw [show List.range' i (n + 1) = i :: List.range' (i + 1) n from rfl]
    rcases Nat.eq_or_lt_of_le h1 with rfl | hij
    · exact List.find?_cons_of_pos _ h3
    · rw [List.find?_cons_of_neg _ (by simp [h4 i (le_refl _) hij])]
      exact ih (by omega) (by omega) (fun k hk1 hk2 => h4 k (by omega) hk2)

theorem deflateStoredGo_length_ge (fuelD : Nat) (B : List Nat)
    (h : B.length + 1 ≤ fuelD) : B.length ≤ (deflateStoredGo fuelD B).length := by
  induction fuelD generalizing B with
  | zero => omega
  | succ fuelD ih =>
    unfold deflateStoredGo
    by_cases hB : B.length ≤ 65535
    · simp [hB]
      omega
    · simp only [hB, if_false]
      have h1 := ih (B.drop 65535) (by simp; omega)
      simp only [List.length_append, List.length_cons, List.length_take,
        List.length_drop] at h1 ⊢
      omega

theorem inflateGo_deflateStored_aux :
    ∀ (n : Nat) (B : List Nat), B.length = n →
      ∀ (fuelD fuelI : Nat) (acc extra : List Nat),
        B.length + 1 ≤ fuelD → B.length + 1 ≤ fuelI →
        inflateGo fuelI acc (deflateStoredGo fuelD B ++ extra) =
          .done (acc ++ B) extra := by
  intro n
  induction n using Nat.strong_induction_on with
  | _ n ih =>
    intro B hBn fuelD fuelI acc extra hD hI
    match fuelD, hD with
    | fuelD + 1, hD =>
    match fuelI, hI with
    | fuelI + 1, hI =>
    unfold deflateStoredGo
    by_cases hB : B.length ≤ 65535
    · simp only [hB, if_true]
      rw [show ([1, B.length % 256, B.length / 256, (65535 - B.length) % 256,
          (65535 - B.length) / 256] ++ B) ++ extra =
        1 :: B.length % 256 :: B.length / 256 :: (65535 - B.length) % 256 ::
          (65535 - B.length) / 256 :: (B ++ extra) from by simp]
      simp only [inflateGo]
      rw [if_pos (by norm_num)]
      rw [if_pos (by simp only [Nat.mod_add_div])]
      rw [if_neg (by
        simp only [Nat.mod_add_div, List.length_append]
        omega)]
      rw [if_pos (by norm_num)]
      rw [show B.length % 256 + 256 * (B.length / 256) = B.length from
        Nat.mod_add_div _ _]
      rw [List.take_left, List.drop_left]
    · simp only [hB, if_false]
      rw [show ([0, 255, 255, 0, 0] ++ B.take 65535 ++
          deflateStoredGo fuelD (B.drop 65535)) ++ extra =
        0 :: 255 :: 255 :: 0 :: 0 ::
          ((B.take 65535 ++ deflateStoredGo fuelD (B.drop 65535)) ++ extra) from by
        simp]
      simp only [inflateGo]
      rw [if_pos (by norm_num)]
      rw [if_pos (by norm_num)]
      have htk : (B.take 65535).length = 65535 := by
        simp only [List.length_take]
        omega
      rw [if_neg (by
        simp only [List.length_append, htk]
        omega)]
      rw [if_neg (by norm_num)]
      rw [show (255 : Nat) + 256 * 255 = 65535 from by norm_num]
      rw [show ((B.take 65535 ++ deflateStoredGo fuelD (B.drop 65535)) ++ extra) =
        B.take 65535 ++ (deflateStoredGo fuelD (B.drop 65535) ++ extra) from by
        simp]
      rw [List.take_left' htk, List.drop_left' htk]
      rw [ih (B.drop 65535).length (by simp; omega) (B.drop 65535) rfl fuelD fuelI
        (acc ++ B.take 65535) extra (by simp; omega) (by simp; omega)]
      rw [List.append_assoc, List.take_append_drop]

theorem inflateGo_deflateStored (B : List Nat) (fuelI : Nat) (acc extra : List Nat)
    (hI : B.length + 1 ≤ fuelI) :
    inflateGo fuelI acc (deflateStored B ++ extra) = .done (acc ++ B) extra :=
  inflateGo_deflateStored_aux B.length B rfl (B.length + 1) fuelI acc extra
    (le_refl _) hI

theorem zlibCompress_cons (B : List Nat) :
    zlibCompress B = 0x78 :: 0x9C :: (deflateStored B ++ adlerBytes B) := by
  simp [zlibCompress]

theorem zlibCompress_length_ge (B : List Nat) :
    B.length + 6 ≤ (zlibCompress B).length := by
  rw [zlibCompress_cons]
  simp only [List.length_cons, List.length_append]
  have h1 := deflateStoredGo_length_ge (B.length + 1) B (le_refl _)
  have h2 : (adlerBytes B).length = 4 := by simp [adlerBytes]
  unfold deflateStored
  omega

theorem zlibDecompress_zlibCompress (B : List Nat) :
    zlibDecompress (zlibCompress B) = some B := by
  rw [zlibCompress_cons]
  simp only [zlibDecompress]
  rw [if_pos (by norm_num)]
  have hlen : B.length + 1 ≤ (deflateStored B ++ adlerBytes B).length + 1 := by
    simp only [List.length_append]
    have h1 := deflateStoredGo_length_ge (B.length + 1) B (le_refl _)
    unfold deflateStored
    omega
  rw [inflateGo_deflateStored B _ [] (adlerBytes B) hlen]
  have h4 : (adlerBytes B).length = 4 := by simp [adlerBytes]
  show (if 4 ≤ (adlerBytes B).length ∧ List.take 4 (adlerBytes B) = adlerBytes ([] ++ B)
    then some (([] : List Nat) ++ B) else none) = some B
  rw [if_pos ⟨by omega, by
    rw [List.nil_append]
    exact List.take_of_length_le (by omega)⟩]
  rw [List.nil_append]

/-- Claim C2: compressing any byte sequence with the standard zlib
scheme, prepending the `RZ` signature and any header bytes that do not
themselves contain a deflate-header signature (and that keep the
stream inside the constructor's 100-byte search window), then
constructing the body decoder and calling `decompress`, returns
exactly the original bytes. -/
theorem c2_roundtrip (B hd : List Nat)
    (hlen : 2 + hd.length < 100)
    (hsig : ∀ i, 2 ≤ i → i < 2 + hd.length →
      sigAt (82 :: 90 :: (hd ++ zlibCompress B)) i = false) :
    memBodyInit (82 :: 90 :: (hd ++ zlibCompress B)) =
      .ok { data := 82 :: 90 :: (hd ++ zlibCompress B),
            compress_offset := 2 + hd.length } ∧
    MemBody.decompress
      { data := 82 :: 90 :: (hd ++ zlibCompress B),
        compress_offset := 2 + hd.length } = .ok B := by
  have hdlen : (82 :: 90 :: (hd ++ zlibCompress B)).length =
      2 + hd.length + (zlibCompress B).length := by
    simp
    omega
  have hzlen := zlibCompress_length_ge B
  have hsig_at : sigAt (82 :: 90 :: (hd ++ zlibCompress B)) (2 + hd.length) = true := by
    unfold sigAt
    have h1 : (82 :: 90 :: (hd ++ zlibCompress B)).getD (2 + hd.length) 0 = 0x78 := by
      rw [show 2 + hd.length = hd.length + 1 + 1 from by omega]
      rw [List.getD_cons_succ, List.getD_cons_succ]
      rw [List.getD_append_right hd (zlibCompress B) 0 hd.length (le_refl _)]
      rw [Nat.sub_self, zlibCompress_cons, List.getD_cons_zero]
    have h2 : (82 :: 90 :: (hd ++ zlibCompress B)).getD (2 + hd.length + 1) 0 = 0x9C := by
      rw [show 2 + hd.length + 1 = hd.length + 1 + 1 + 1 from by omega]
      rw [List.getD_cons_succ, List.getD_cons_succ]
      rw [List.getD_append_right hd (zlibCompress B) 0 (hd.length + 1) (by omega)]
      rw [show hd.length + 1 - hd.length = 1 from by omega]
      rw [zlibCompress_cons, List.getD_cons_succ, List.getD_cons_zero]
    rw [h1, h2]
    decide
  have hfind : findDeflateStart (82 :: 90 :: (hd ++ zlibCompress B)) =
      some (2 + hd.length) := by
    unfold findDeflateStart
    apply find?_range'_eq_some (by omega) ?_ hsig_at
      (fun k hk1 hk2 => hsig k hk1 hk2)
    omega
  have hinit : memBodyInit (82 :: 90 :: (hd ++ zlibCompress B)) =
      .ok { data := 82 :: 90 :: (hd ++ zlibCompress B),
            compress_offset := 2 + hd.length } := by
    unfold memBodyInit
    rw [if_pos (by rfl), hfind]
  refine ⟨hinit, ?_⟩
  unfold MemBody.decompress
  simp only
  have hdrop : (82 :: 90 :: (hd ++ zlibCompress B)).drop (2 + hd.length) =
      zlibCompress B := by
    rw [show 2 + hd.length = hd.length + 1 + 1 from by omega]
    rw [List.drop_succ_cons, List.drop_succ_cons]
    rw [show hd.length = hd.length from rfl]
    exact List.drop_left hd (zlibCompress B)
  rw [hdrop, zlibDecompress_zlibCompress]

/-- Witness for C2 with payload `[1, 2, 3]` and no extra header
bytes. -/
theorem c2_roundtrip_witness :
    MemBody.decompress
      { data := 82 :: 90 :: (([] : List Nat) ++ zlibCompress [1, 2, 3]),
        compress_offset := 2 + ([] : List Nat).length } = .ok [1, 2, 3] :=
  (c2_roundtrip [1, 2, 3] [] (by decide)
    (fun i h1 h2 => absurd h2 (by simp only [List.length_nil]; omega))).2


/-- Claim C3 (amended): `decompress` first attempts zlib-wrapped
decompression of the stream and returns its result when it succeeds;
a zlib-wrapped success is always a complete inflation (verified
against the checksum trailer); on zlib failure the raw-deflate
fallback's output is returned when it succeeds — but that output may
be the partial prefix recovered from a truncated stream; the
`DecompressionFailed` error is signalled if and only if both attempts
fail. -/
theorem c3_decompress_fallback (m : MemBody) :
    ((∃ e, MemBody.decompress m = .error e) ↔
      (zlibDecompress (m.data.drop m.compress_offset) = none ∧
        rawInflate (m.data.drop m.compress_offset) = none)) ∧
    (∀ d, zlibDecompress (m.data.drop m.compress_offset) = some d →
      MemBody.decompress m = .ok d) ∧
    (∀ d, zlibDecompress (m.data.drop m.compress_offset) = some d →
      ∃ cmf flg rest, m.data.drop m.compress_offset = cmf :: flg :: rest ∧
        doneOut (inflateGo (rest.length + 1) [] rest) = some d) ∧
    (∀ d, zlibDecompress (m.data.drop m.compress_offset) = none →
      rawInflate (m.data.drop m.compress_offset) = some d →
      MemBody.decompress m = .ok d) := by
  refine ⟨?_, ?_, ?_, ?_⟩
  · rcases hz : zlibDecompress (m.data.drop m.compress_offset) with _ | d
    · rcases hr : rawInflate (m.data.drop m.compress_offset) with _ | d
      · simp [MemBody.decompress, hz, hr]
      · simp [MemBody.decompress, hz, hr]
    · simp [MemBody.decompress, hz]
  · intro d hz
    simp [MemBody.decompress, hz]
  · intro d hz
    rcases hsm : m.data.drop m.compress_offset with _ | ⟨cmf, _ | ⟨flg, rest⟩⟩
    · rw [hsm] at hz
      simp [zlibDecompress] at hz
    · rw [hsm] at hz
      simp [zlibDecompress] at hz
    · rw [hsm] at hz
      simp only [zlibDecompress] at hz
      refine ⟨cmf, flg, rest, rfl, ?_⟩
      split at hz
      · split at hz
        · rename_i out rest2 heq
          rw [heq]
          unfold doneOut
          split at hz
          · exact hz
          · simp at hz
        · simp at hz
      · simp at hz
  · intro d hz hr
    simp [MemBody.decompress, hz, hr]

/-- Counterexample to C3 as stated: on a body whose stream is a
truncated raw stored block, `decompress` succeeds with the partial
bytes `AA BB` copied before the stream ended, which neither
decompression path produced as a complete result. -/
theorem c3_counterexample :
    ¬(∀ m : MemBody,
      ((∃ e, MemBody.decompress m = .error e) ↔
        (zlibDecompress (m.data.drop m.compress_offset) = none ∧
          rawInflate (m.data.drop m.compress_offset) = none)) ∧
      (∀ d, MemBody.decompress m = .ok d →
        zlibDecompress (m.data.drop m.compress_offset) = some d ∨
        doneOut (inflateGo ((m.data.drop m.compress_offset).length + 1) []
          (m.data.drop m.compress_offset)) = some d)) := by
  intro hcl
  rcases (hcl exTruncBody).2 [0xAA, 0xBB] (by rfl) with h | h
  · exact absurd h (by decide)
  · exact absurd h (by decide)

/-- Witness for the amended C3 on a body with a valid zlib stream. -/
theorem c3_decompress_fallback_witness :
    MemBody.decompress exGoodBody = .ok [5] :=
  (c3_decompress_fallback exGoodBody).2.1 [5] (by decide)


theorem firstIdxOf_isSome_of_pyIn (pat : List Char) (hp : pat ≠ []) :
    ∀ s, pyIn pat s = true → ∃ i, firstIdxOf pat s = some i := by
  intro s
  induction s with
  | nil =>
    intro h
    simp only [pyIn, List.isEmpty_iff] at h
    exact absurd h hp
  | cons c rest ih =>
    intro h
    simp only [pyIn, Bool.or_eq_true] at h
    by_cases hpre : List.isPrefixOf pat (c :: rest)
    · exact ⟨0, by simp [firstIdxOf, hpre]⟩
    · rcases h with h | h
      · exact absurd h hpre
      · obtain ⟨i, hi⟩ := ih h
        exact ⟨i + 1, by simp [firstIdxOf, hpre, hi]⟩

theorem pySlice_eq_nil_of_le (s : List Char) (a b : Nat) (h : b ≤ a) :
    pySlice s a b = [] := by
  unfold pySlice
  apply List.drop_eq_nil_of_le
  calc (s.take b).length ≤ b := by
        simp only [List.length_take]
        omega
    _ ≤ a := h

/-- Claim C4 (amended): for a non-speaker line containing both quote
glyphs, a dialogue record is emitted iff the trimmed enclosed text has
length at least 2 and passes the code's single-range Japanese test
`_has_japanese` (any codepoint in `U+3040..U+9FFF`). -/
theorem c4_dialogue_acceptance (filename : List Char) (lines : List (List Char))
    (line_num : Nat) (spk : Option (List Char)) (l : List Char)
    (hspk : speakerLineCond (pyRStrip l) = false)
    (hq : quoteCond (pyRStrip l) = true) :
    (lineRecords filename lines line_num spk l ≠ [] ↔
      2 ≤ (pyStrip (enclosedQuote (pyRStrip l))).length ∧
        has_japanese (pyStrip (enclosedQuote (pyRStrip l))) = true) := by
  simp only [lineRecords, hspk, hq, Bool.false_eq_true, if_false, if_true]
  unfold dialogueEmit
  set line := pyRStrip l with hline
  by_cases hss : 0 < pyFind "「".toList line + 1 ∧
      pyFind "「".toList line + 1 < pyFind "」".toList line
  · rw [if_pos hss]
    show (if (has_japanese (pyStrip (enclosedQuote line)) &&
        decide (2 ≤ (pyStrip (enclosedQuote line)).length)) = true
      then _ else ([] : List DialogueRecord)) ≠ [] ↔ _
    split
    · rename_i hacc
      simp only [Bool.and_eq_true, decide_eq_true_eq] at hacc
      constructor
      · intro _
        exact ⟨hacc.2, hacc.1⟩
      · intro _
        exact List.cons_ne_nil _ _
    · rename_i hacc
      simp only [Bool.and_eq_true, decide_eq_true_eq] at hacc
      constructor
      · intro hne
        exact absurd rfl hne
      · rintro ⟨h2, hj⟩
        exact absurd ⟨hj, h2⟩ hacc
  · rw [if_neg hss]
    constructor
    · intro hne
      exact absurd rfl hne
    · rintro ⟨h2, _⟩
      exfalso
      have h1 : pyIn "「".toList line = true ∧ pyIn "」".toList line = true := by
        simpa only [quoteCond, Bool.and_eq_true] using hq
      obtain ⟨i, hi⟩ := firstIdxOf_isSome_of_pyIn _ (by decide) _ h1.1
      have hstart : pyFind "「".toList line = (i : Int) := by
        simp only [pyFind, hi]
      have he : enclosedQuote line = [] := by
        unfold enclosedQuote
        apply pySlice_eq_nil_of_le
        rw [hstart] at hss ⊢
        omega
      rw [he] at h2
      exact absurd h2 (by decide)

theorem c4_dialogue_acceptance_witness :
    (lineRecords "f".toList ["「ああ」".toList] 0 none "「ああ」".toList ≠ [] ↔
      2 ≤ (pyStrip (enclosedQuote (pyRStrip "「ああ」".toList))).length ∧
        has_japanese (pyStrip (enclosedQuote (pyRStrip "「ああ」".toList))) = true) :=
  c4_dialogue_acceptance "f".toList ["「ああ」".toList] 0 none "「ああ」".toList
    (by decide) (by decide)

/-- Counterexample to C4 as stated: the code accepts any codepoint in
the merged range `U+3040..U+9FFF`, which also covers e.g. CJK
Extension A; the line `「㐀㐀」` (two `U+3400` codepoints, outside the
three spec ranges) is accepted by the code but rejected by the spec's
three-range test. -/
theorem c4_counterexample :
    ¬(∀ (filename : List Char) (lines : List (List Char)) (line_num : Nat)
        (spk : Option (List Char)) (l : List Char),
        speakerLineCond (pyRStrip l) = false →
        quoteCond (pyRStrip l) = true →
        pyFind "「".toList (pyRStrip l) < pyFind "」".toList (pyRStrip l) →
        (lineRecords filename lines line_num spk l ≠ [] ↔
          2 ≤ (pyStrip (enclosedQuote (pyRStrip l))).length ∧
            specJapaneseRanges (pyStrip (enclosedQuote (pyRStrip l))) = true)) := by
  intro hcl
  have h := hcl "f".toList ["「㐀㐀」".toList] 0 none "「㐀㐀」".toList
    (by decide) (by decide) (by decide)
  exact absurd (h.mp (by decide)).2 (by decide)

theorem dialogueEmit_type (filename : List Char) (lines : List (List Char))
    (line_num : Nat) (spk : Option (List Char)) (line : List Char) :
    ∀ r ∈ dialogueEmit filename lines line_num spk line, r.type = none := by
  intro r hr
  simp only [dialogueEmit] at hr
  split at hr
  · split at hr
    · rw [List.mem_singleton] at hr
      subst hr
      rfl
    · exact absurd hr (List.not_mem_nil r)
  · exact absurd hr (List.not_mem_nil r)

theorem narrativeEmit_type (filename : List Char) (lines : List (List Char))
    (line_num : Nat) (line : List Char) :
    ∀ r ∈ narrativeEmit filename lines line_num line,
      r.type = some "narrative".toList := by
  intro r hr
  simp only [narrativeEmit] at hr
  split at hr
  · rw [List.mem_singleton] at hr
    subst hr
    rfl
  · exact absurd hr (List.not_mem_nil r)

theorem extractGo_type_mem (filename : List Char) (lines : List (List Char)) :
    ∀ (ls : List (List Char)) (n : Nat) (spk : Option (List Char))
      (r : DialogueRecord), r ∈ extractGo filename lines ls n spk →
      r.type = none ∨ r.type = some "narrative".toList := by
  intro ls
  induction ls with
  | nil =>
    intro n spk r hr
    exact absurd hr (List.not_mem_nil r)
  | cons l rest ih =>
    intro n spk r hr
    rw [extractGo, List.mem_append] at hr
    rcases hr with hr | hr
    · simp only [lineRecords] at hr
      split at hr
      · exact absurd hr (List.not_mem_nil r)
      · split at hr
        · exact Or.inl (dialogueEmit_type _ _ _ _ _ r hr)
        · split at hr
          · exact Or.inr (narrativeEmit_type _ _ _ _ r hr)
          · exact absurd hr (List.not_mem_nil r)
    · exact ih _ _ _ hr

/-- Claim C8 (amended): records emitted by the dialogue rule carry no
`type` key at all (`none`), not `type = dialogue`; records emitted by
the narrative rule carry `type = narrative`; hence every extracted
record has `type` either absent or `narrative`. -/
theorem c8_record_types :
    (∀ (filename : List Char) (lines : List (List Char)) (line_num : Nat)
      (spk : Option (List Char)) (line : List Char),
      ∀ r ∈ dialogueEmit filename lines line_num spk line, r.type = none) ∧
    (∀ (filename : List Char) (lines : List (List Char)) (line_num : Nat)
      (line : List Char),
      ∀ r ∈ narrativeEmit filename lines line_num line,
        r.type = some "narrative".toList) ∧
    (∀ (filename text : List Char), ∀ r ∈ extract_dialogue filename text,
      r.type = none ∨ r.type = some "narrative".toList) :=
  ⟨dialogueEmit_type, narrativeEmit_type, fun filename text r hr =>
    extractGo_type_mem filename (splitLines text) (splitLines text) 0 none r hr⟩

theorem c8_record_types_witness :
    exDialogueRecord.type = none ∨
      exDialogueRecord.type = some "narrative".toList :=
  c8_record_types.2.2 "f".toList "「ああ」".toList exDialogueRecord (by decide)

/-- Counterexample to C8 as stated: the record emitted by the dialogue
rule for the line `「ああ」` has no `type` key (modelled as `none`), so
its type is neither `dialogue` nor `narrative`. -/
theorem c8_counterexample :
    ¬(∀ (filename text : List Char), ∀ r ∈ extract_dialogue filename text,
        r.type = some "dialogue".toList ∨ r.type = some "narrative".toList) := by
  intro hcl
  rcases hcl "f".toList "「ああ」".toList exDialogueRecord (by decide) with h | h <;>
    exact absurd h (by decide)

/-- Claim C5 (amended): the loop's speaker update — a speaker line
sets `current_speaker`, any line containing both `「` and `」` clears
it whether or not a record is accepted, and every other line leaves it
unchanged; any dialogue-rule record (one with `type` absent) therefore
comes with a cleared speaker, while a line all of whose records are
narrative leaves the speaker unchanged exactly when it is not a
quote-pair line. -/
theorem c5_speaker_update (filename : List Char) (lines : List (List Char))
    (l : List Char) (rest : List (List Char)) (line_num : Nat)
    (spk : Option (List Char)) :
    (extractGo filename lines (l :: rest) line_num spk =
      lineRecords filename lines line_num spk l ++
        extractGo filename lines rest (line_num + 1)
          (if speakerLineCond (pyRStrip l) then
            some (pyStripChars "｛｝".toList (pyRStrip l))
           else if quoteCond (pyRStrip l) then none
           else spk)) ∧
    (∀ text : List Char, extract_dialogue filename text =
        extractGo filename (splitLines text) (splitLines text) 0 none) ∧
    ((∃ r ∈ lineRecords filename lines line_num spk l,
        r.type ≠ some "narrative".toList) →
      stepSpeaker spk l = none) ∧
    (speakerLineCond (pyRStrip l) = false → quoteCond (pyRStrip l) = false →
      stepSpeaker spk l = spk) := by
  refine ⟨rfl, fun _ => rfl, ?_, ?_⟩
  · rintro ⟨r, hr, hrt⟩
    by_cases h1 : speakerLineCond (pyRStrip l) = true
    · exfalso
      simp only [lineRecords, h1, if_true] at hr
      exact absurd hr (List.not_mem_nil r)
    · by_cases h2 : quoteCond (pyRStrip l) = true
      · simp only [stepSpeaker]
        rw [if_neg h1, if_pos h2]
      · exfalso
        simp only [lineRecords, if_neg h1, if_neg h2] at hr
        split at hr
        · exact hrt (narrativeEmit_type _ _ _ _ r hr)
        · exact absurd hr (List.not_mem_nil r)
  · intro h1 h2
    simp only [stepSpeaker]
    rw [if_neg (by rw [h1]; exact Bool.false_ne_true),
      if_neg (by rw [h2]; exact Bool.false_ne_true)]

theorem c5_speaker_update_witness :
    stepSpeaker (some "N".toList) "「ああ」".toList = none :=
  (c5_speaker_update "f".toList ["「ああ」".toList] "「ああ」".toList [] 0
    (some "N".toList)).2.2.1 (by decide)

/-- Counterexample to C5 as stated: the line `「a」` contains both
quote glyphs but its enclosed text is rejected, so no record is
emitted; the claim says such a line leaves the speaker unchanged, yet
the code clears it. -/
theorem c5_counterexample :
    ¬(∀ (filename : List Char) (lines : List (List Char)) (line_num : Nat)
        (spk : Option (List Char)) (l : List Char),
        speakerLineCond (pyRStrip l) = false →
        (∀ r ∈ lineRecords filename lines line_num spk l,
          r.type = some "narrative".toList) →
        stepSpeaker spk l = spk) := by
  intro hcl
  have h := hcl "f".toList ["「a」".toList] 0 (some "N".toList) "「a」".toList
    (by decide) (by decide)
  exact absurd h (by decide)

theorem downRangeExcl_mem (s t : Nat) : ∀ i ∈ downRangeExcl s t, t < i ∧ i ≤ s := by
  induction s with
  | zero =>
    intro i hi
    exact absurd hi (List.not_mem_nil i)
  | succ s ih =>
    intro i hi
    unfold downRangeExcl at hi
    split at hi
    · rcases List.mem_cons.mp hi with h | h
      · subst h
        rename_i hst
        exact ⟨hst, le_refl _⟩
      · obtain ⟨h1, h2⟩ := ih i h
        exact ⟨h1, by omega⟩
    · exact absurd hi (List.not_mem_nil i)

theorem downRangeExcl_length (s t : Nat) : (downRangeExcl s t).length = s - t := by
  induction s with
  | zero => simp [downRangeExcl]
  | succ s ih =>
    unfold downRangeExcl
    split
    · simp only [List.length_cons, ih]
      omega
    · simp only [List.length_nil]
      omega

theorem ctxGo_cons (lines : List (List Char)) (i : Nat) (is : List Nat)
    (acc : List (List Char)) (count : Nat) :
    ctxGo lines (i :: is) acc count =
      match ctxKeep lines i with
      | some c =>
        if 2 ≤ count + 1 then c :: acc else ctxGo lines is (c :: acc) (count + 1)
      | none => if 2 ≤ count then acc else ctxGo lines is acc count := by
  simp only [ctxGo, ctxKeep]
  by_cases h : ¬(pyStrip (lines.getD i [])).isEmpty ∧
      ¬pyStartsWith "//".toList (pyStrip (lines.getD i []))
  · simp only [if_pos h]
  · simp only [if_neg h]

theorem ctxGo_nil (lines : List (List Char)) (acc : List (List Char))
    (count : Nat) : ctxGo lines [] acc count = acc := rfl

theorem ctxGo_small (lines : List (List Char)) :
    ∀ is : List Nat, is.length ≤ 2 →
      ctxGo lines is [] 0 = (is.filterMap (ctxKeep lines)).reverse := by
  intro is h
  match is, h with
  | [], _ => rfl
  | [a], _ =>
    rcases hk : ctxKeep lines a with _ | c <;>
      simp [ctxGo_cons, ctxGo_nil, hk, List.filterMap_cons]
  | [a, b], _ =>
    rcases hk : ctxKeep lines a with _ | c <;>
      rcases hk2 : ctxKeep lines b with _ | c2 <;>
      simp [ctxGo_cons, ctxGo_nil, hk, hk2, List.filterMap_cons]

theorem extractGo_context_mem (filename : List Char) (lines : List (List Char)) :
    ∀ (ls : List (List Char)) (n : Nat) (spk : Option (List Char))
      (r : DialogueRecord), r ∈ extractGo filename lines ls n spk →
      1 ≤ r.line ∧ r.context = joinNL (contextFor lines (r.line - 1)) := by
  intro ls
  induction ls with
  | nil =>
    intro n spk r hr
    exact absurd hr (List.not_mem_nil r)
  | cons l rest ih =>
    intro n spk r hr
    rw [extractGo, List.mem_append] at hr
    rcases hr with hr | hr
    · simp only [lineRecords] at hr
      split at hr
      · exact absurd hr (List.not_mem_nil r)
      · split at hr
        · simp only [dialogueEmit] at hr
          split at hr
          · split at hr
            · rw [List.mem_singleton] at hr
              subst hr
              refine ⟨Nat.le_add_left 1 n, ?_⟩
              simp
            · exact absurd hr (List.not_mem_nil r)
          · exact absurd hr (List.not_mem_nil r)
        · split at hr
          · simp only [narrativeEmit] at hr
            split at hr
            · rw [List.mem_singleton] at hr
              subst hr
              refine ⟨Nat.le_add_left 1 n, ?_⟩
              simp
            · exact absurd hr (List.not_mem_nil r)
          · exact absurd hr (List.not_mem_nil r)
    · exact ih _ _ _ hr

/-- Claim C9 (amended): every extracted record's context is the join
of the lines gathered by the bounded look-back `range(line_num - 1,
max(0, line_num - 3), -1)`: only the two line indices immediately
preceding the record's line are ever examined (in particular never
index 0), the gathered list is exactly the qualifying stripped lines
of those indices in original order, and it has at most 2 elements; the
walk never continues further back to find more qualifying lines. -/
theorem c9_context_lookback (filename text : List Char) :
    ∀ r ∈ extract_dialogue filename text,
      r.context = joinNL (contextFor (splitLines text) (r.line - 1)) ∧
      contextFor (splitLines text) (r.line - 1) =
        ((downRangeExcl (r.line - 1 - 1) (r.line - 1 - 3)).filterMap
          (ctxKeep (splitLines text))).reverse ∧
      (contextFor (splitLines text) (r.line - 1)).length ≤ 2 ∧
      (∀ i ∈ downRangeExcl (r.line - 1 - 1) (r.line - 1 - 3),
        1 ≤ i ∧ i + 2 ≤ r.line ∧ r.line ≤ i + 3) := by
  intro r hr
  obtain ⟨h1, h2⟩ := extractGo_context_mem filename (splitLines text)
    (splitLines text) (0 : Nat) none r hr
  have hlen : (downRangeExcl (r.line - 1 - 1) (r.line - 1 - 3)).length ≤ 2 := by
    rw [downRangeExcl_length]
    omega
  have hsmall := ctxGo_small (splitLines text)
    (downRangeExcl (r.line - 1 - 1) (r.line - 1 - 3)) hlen
  refine ⟨h2, hsmall, ?_, ?_⟩
  · unfold contextFor
    rw [hsmall, List.length_reverse]
    calc ((downRangeExcl (r.line - 1 - 1) (r.line - 1 - 3)).filterMap
          (ctxKeep (splitLines text))).length
        ≤ (downRangeExcl (r.line - 1 - 1) (r.line - 1 - 3)).length :=
          List.length_filterMap_le _ _
      _ ≤ 2 := hlen
  · intro i hi
    obtain ⟨ht, hs⟩ := downRangeExcl_mem _ _ i hi
    omega

theorem c9_context_lookback_witness :
    exC9Record2.context =
        joinNL (contextFor (splitLines "a\npre\n「ああ」".toList)
          (exC9Record2.line - 1)) ∧
      contextFor (splitLines "a\npre\n「ああ」".toList) (exC9Record2.line - 1) =
        ((downRangeExcl (exC9Record2.line - 1 - 1) (exC9Record2.line - 1 - 3)).filterMap
          (ctxKeep (splitLines "a\npre\n「ああ」".toList))).reverse ∧
      (contextFor (splitLines "a\npre\n「ああ」".toList)
        (exC9Record2.line - 1)).length ≤ 2 ∧
      (∀ i ∈ downRangeExcl (exC9Record2.line - 1 - 1) (exC9Record2.line - 1 - 3),
        1 ≤ i ∧ i + 2 ≤ exC9Record2.line ∧ exC9Record2.line ≤ i + 3) :=
  c9_context_lookback "f".toList "a\npre\n「ああ」".toList exC9Record2 (by decide)

/-- Counterexample to C9 as stated: the spec's walk is unbounded until
two qualifying lines are found, so for the text `cat\n「ああ」` it
would collect `cat` (index 0); the code's `range(line_num - 1,
max(0, line_num - 3), -1)` is empty for `line_num = 1` and the emitted
record's context is empty. -/
theorem c9_counterexample :
    ¬(∀ (filename text : List Char), ∀ r ∈ extract_dialogue filename text,
        r.context = joinNL (specContextWalk (splitLines text) (r.line - 1))) := by
  intro hcl
  have h := hcl "f".toList "cat\n「ああ」".toList exC9Record (by decide)
  exact absurd h (by decide)

end TriangleM
